import Mathlib

/-!
Verification development for the samson SMS-ingestion service.

The development shallowly embeds the Rust sources (`src/utils.rs`,
`src/db.rs`, `src/modem.rs`, `src/poller.rs`) into Lean:

* a `chrono::DateTime<Utc>` instant is modelled as a civil UTC datetime
  record `DateTimeUtc` with four-digit years (the range RFC 3339 covers;
  leap seconds, which chrono encodes as a nanosecond overflow, are outside
  the model);
* `DateTime::parse_from_rfc3339` and `to_rfc3339` are modelled as
  executable functions over the character list of a string (all characters
  produced and inspected are ASCII, so character-level comparison agrees
  with the byte-level comparison that Rust and SQLite perform);
* the SQLite message table is modelled as a list of rows whose timestamp
  column holds the rendered RFC 3339 text, exactly as `db.rs` stores it;
* the poller's fallible external calls (store access, modem deletion) are
  driven by explicit outcome environments, and each run records the events
  it performed so that ordering claims can be stated.
-/

namespace Samson

/-- Model of a `chrono::DateTime<Utc>` instant: a civil UTC datetime.
Years are restricted to 0..9999 (the RFC 3339 range) and nanoseconds to
`< 10^9` (chrono's leap-second encoding via nanosecond overflow is out of
scope); the restriction is imposed by the validity predicate `ValidDT`. -/
structure DateTimeUtc where
  year : Nat
  month : Nat
  day : Nat
  hour : Nat
  minute : Nat
  second : Nat
  nanos : Nat
deriving DecidableEq

/-- Gregorian leap-year test, as used by chrono's calendar. -/
def isLeapYear (y : Nat) : Bool :=
  (y % 4 == 0 && y % 100 != 0) || y % 400 == 0

/-- Number of days in a month of the proleptic Gregorian calendar. -/
def daysInMonth (y m : Nat) : Nat :=
  if m == 2 then (if isLeapYear y then 29 else 28)
  else if m == 4 || m == 6 || m == 9 || m == 11 then 30
  else 31

/-- Validity of a civil UTC datetime in the model: calendar ranges as
chrono validates them, with the year limited to the four-digit RFC 3339
range and no leap second. -/
def ValidDT (t : DateTimeUtc) : Prop :=
  t.year ≤ 9999 ∧ 1 ≤ t.month ∧ t.month ≤ 12 ∧ 1 ≤ t.day ∧
  t.day ≤ daysInMonth t.year t.month ∧ t.hour ≤ 23 ∧ t.minute ≤ 59 ∧
  t.second ≤ 59 ∧ t.nanos < 1000000000

instance (t : DateTimeUtc) : Decidable (ValidDT t) := by
  unfold ValidDT; infer_instance

/-- Chronological strict order on instants: lexicographic on the civil
components, which coincides with instant order for valid datetimes. -/
def dtLtb (a b : DateTimeUtc) : Bool :=
  if a.year ≠ b.year then a.year < b.year
  else if a.month ≠ b.month then a.month < b.month
  else if a.day ≠ b.day then a.day < b.day
  else if a.hour ≠ b.hour then a.hour < b.hour
  else if a.minute ≠ b.minute then a.minute < b.minute
  else if a.second ≠ b.second then a.second < b.second
  else a.nanos < b.nanos

/-- The ASCII digit character for `n < 10`. -/
def digitChar (n : Nat) : Char := Char.ofNat (48 + n)

/-- Fixed-width decimal rendering, most significant digit first:
`padDigits k n` is the `k`-digit zero-padded rendering of `n % 10^k`. -/
def padDigits : Nat → Nat → List Char
  | 0, _ => []
  | k + 1, n => digitChar (n / 10 ^ k) :: padDigits k (n % 10 ^ k)

/-- Fractional-second rendering of chrono's `%.f` specifier as used by
`to_rfc3339`: empty for zero nanoseconds, otherwise a dot followed by 3, 6
or 9 digits depending on trailing zeros. -/
def fracChars (n : Nat) : List Char :=
  if n == 0 then []
  else if n % 1000000 == 0 then '.' :: padDigits 3 (n / 1000000)
  else if n % 1000 == 0 then '.' :: padDigits 6 (n / 1000)
  else '.' :: padDigits 9 n

/-- The `+00:00` suffix chrono renders for the UTC offset. -/
def offsetUtcChars : List Char := ['+', '0', '0', ':', '0', '0']

/-- Model of `DateTime<Utc>::to_rfc3339` (chrono): zero-padded civil
fields, optional fraction, `+00:00` offset. -/
def toRfc3339Chars (t : DateTimeUtc) : List Char :=
  padDigits 4 t.year ++ '-' :: (padDigits 2 t.month ++ '-' :: (padDigits 2 t.day ++
  'T' :: (padDigits 2 t.hour ++ ':' :: (padDigits 2 t.minute ++ ':' ::
  (padDigits 2 t.second ++ (fracChars t.nanos ++ offsetUtcChars))))))

/-- String form of `to_rfc3339`. -/
def toRfc3339 (t : DateTimeUtc) : String := String.mk (toRfc3339Chars t)

/-- Scan exactly `k` ASCII digits, accumulating their value. Model of
chrono's fixed-width `scan::number`. -/
def scanNum : Nat → Nat → List Char → Option (Nat × List Char)
  | 0, acc, s => some (acc, s)
  | k + 1, acc, s =>
    match s with
    | [] => none
    | c :: rest =>
      if c.isDigit then scanNum k (acc * 10 + (c.toNat - 48)) rest else none

/-- Value of a list of ASCII digit characters, most significant first. -/
def digitsVal (ds : List Char) : Nat :=
  ds.foldl (fun a c => a * 10 + (c.toNat - 48)) 0

/-- Model of chrono's `scan::nanosecond`: at least one digit, the first
nine digits are significant (scaled to nanoseconds), any further digits
are consumed and ignored. -/
def scanNanos (s : List Char) : Option (Nat × List Char) :=
  let ds := s.takeWhile (·.isDigit)
  if ds.isEmpty then none
  else
    let use := ds.take 9
    some (digitsVal use * 10 ^ (9 - use.length), s.dropWhile (·.isDigit))

/-- Consume one expected character. -/
def expectChar (c : Char) : List Char → Option (List Char)
  | [] => none
  | x :: rest => if x = c then some rest else none

/-- Consume the date/time separator: chrono's RFC 3339 scan accepts
`T`, `t` or a space. -/
def scanSep : List Char → Option (List Char)
  | [] => none
  | c :: rest => if c = 'T' || c = 't' || c = ' ' then some rest else none

/-- Optional fractional seconds: a leading dot starts a nanosecond scan;
otherwise nothing is consumed and the nanoseconds are zero. -/
def scanFrac (s : List Char) : Option (Nat × List Char) :=
  match s with
  | '.' :: rest => scanNanos rest
  | _ => some (0, s)

/-- Sign factor of an offset: `-1` for a minus sign, `+1` otherwise. -/
def offSign (c : Char) : Int := if c = '-' then -1 else 1

/-- Model of chrono's RFC 3339 timezone scan: `Z`/`z`, or a sign followed
by two digits, a colon and two digits. -/
def scanOffset : List Char → Option (Int × List Char)
  | [] => none
  | c :: rest =>
    if c = 'Z' || c = 'z' then some (0, rest)
    else if c = '+' || c = '-' then
      match scanNum 2 0 rest with
      | none => none
      | some (hh, r1) =>
        match expectChar ':' r1 with
        | none => none
        | some r2 =>
          match scanNum 2 0 r2 with
          | none => none
          | some (mm, r3) =>
            some (offSign c * ((hh * 3600 + mm * 60 : Nat) : Int), r3)
    else none

/-- Step a valid civil date back by one day (`none` when leaving the
modelled year range). -/
def prevDate (y m d : Nat) : Option (Nat × Nat × Nat) :=
  if 2 ≤ d then some (y, m, d - 1)
  else if 2 ≤ m then some (y, m - 1, daysInMonth y (m - 1))
  else if 1 ≤ y then some (y - 1, 12, 31)
  else none

/-- Step a valid civil date forward by one day (`none` when leaving the
modelled year range). -/
def nextDate (y m d : Nat) : Option (Nat × Nat × Nat) :=
  if d < daysInMonth y m then some (y, m, d + 1)
  else if m < 12 then some (y, m + 1, 1)
  else if y < 9999 then some (y + 1, 1, 1)
  else none

/-- Convert a parsed civil datetime with a fixed offset to UTC by
subtracting the offset; since the offset magnitude is below one day the
date moves by at most one day. -/
def applyOffset (y mo d h mi s nanos : Nat) (off : Int) : Option DateTimeUtc :=
  let tsec : Int := ((h * 3600 + mi * 60 + s : Nat) : Int) - off
  if 0 ≤ tsec ∧ tsec < 86400 then
    let u := tsec.toNat
    some ⟨y, mo, d, u / 3600, u % 3600 / 60, u % 60, nanos⟩
  else if tsec < 0 then
    match prevDate y mo d with
    | some (y', m', d') =>
      let u := (tsec + 86400).toNat
      some ⟨y', m', d', u / 3600, u % 3600 / 60, u % 60, nanos⟩
    | none => none
  else
    match nextDate y mo d with
    | some (y', m', d') =>
      let u := (tsec - 86400).toNat
      some ⟨y', m', d', u / 3600, u % 3600 / 60, u % 60, nanos⟩
    | none => none

/-- Final step of the strict parse: require the input to be fully
consumed, validate the calendar and offset ranges as chrono does, then
convert to UTC. -/
def finishParse (y mo d h mi sec nanos : Nat) (off : Int) (s : List Char) :
    Option DateTimeUtc :=
  if s = [] ∧ 1 ≤ mo ∧ mo ≤ 12 ∧ 1 ≤ d ∧ d ≤ daysInMonth y mo ∧
      h ≤ 23 ∧ mi ≤ 59 ∧ sec ≤ 59 ∧ -86400 < off ∧ off < 86400 then
    applyOffset y mo d h mi sec nanos off
  else none

/-- Model of `DateTime::parse_from_rfc3339` followed by
`with_timezone(&Utc)`: strict scan of `YYYY-MM-DD` separator `HH:MM:SS`,
optional `.fraction`, mandatory offset, whole input consumed, calendar
validation, then conversion to UTC. (chrono additionally accepts a leap
second `:60`, which is outside this model.) -/
def parseRfc3339Chars (s : List Char) : Option DateTimeUtc := do
  let (y, s) ← scanNum 4 0 s
  let s ← expectChar '-' s
  let (mo, s) ← scanNum 2 0 s
  let s ← expectChar '-' s
  let (d, s) ← scanNum 2 0 s
  let s ← scanSep s
  let (h, s) ← scanNum 2 0 s
  let s ← expectChar ':' s
  let (mi, s) ← scanNum 2 0 s
  let s ← expectChar ':' s
  let (sec, s) ← scanNum 2 0 s
  let (nanos, s) ← scanFrac s
  let (off, s) ← scanOffset s
  finishParse y mo d h mi sec nanos off s

/-- Character-list body of `fix_incomplete_timezone` (src/utils.rs): when
the last three characters match `[+-]DD`, append `:00`. The Rust function
inspects the last three bytes of the UTF-8 encoding; since an ASCII byte
never occurs inside a multi-byte UTF-8 sequence, the byte-level and
character-level checks accept exactly the same strings and produce the
same output. -/
def fixChars (s : List Char) : Option (List Char) :=
  let len := s.length
  if len < 3 then none
  else
    let c1 := s.getD (len - 3) ' '
    let c2 := s.getD (len - 2) ' '
    let c3 := s.getD (len - 1) ' '
    if (c1 = '+' || c1 = '-') && c2.isDigit && c3.isDigit then
      some (s ++ [':', '0', '0'])
    else none

/-- Panic-aware variant of `fixChars`: the three end-relative index
accesses are performed with `List.get?`, and an out-of-bounds access
(which in Rust would be a slice-index panic) yields the outer `none`.
`fixCharsChecked s = some r` states that the function runs without any
out-of-bounds access and returns `r`. -/
def fixCharsChecked (s : List Char) : Option (Option (List Char)) :=
  let len := s.length
  if len < 3 then some none
  else
    match s.get? (len - 3), s.get? (len - 2), s.get? (len - 1) with
    | some c1, some c2, some c3 =>
      some (if (c1 = '+' || c1 = '-') && c2.isDigit && c3.isDigit then
        some (s ++ [':', '0', '0'])
      else none)
    | _, _, _ => none

/-- Model of `fix_incomplete_timezone` (src/utils.rs) at string level. -/
def fix_incomplete_timezone (s : String) : Option String :=
  (fixChars s.data).map String.mk

/-- Model of `parse_rfc3339_timestamp` (src/utils.rs): strict parse
first; on failure, repair an incomplete trailing offset and retry the
strict parse once; otherwise fail. -/
def parse_rfc3339_timestamp (s : String) : Option DateTimeUtc :=
  match parseRfc3339Chars s.data with
  | some t => some t
  | none =>
    match fixChars s.data with
    | some f => parseRfc3339Chars f
    | none => none

/-- SQLite BINARY comparison (bytewise memcmp) on text values, at
character level; every timestamp value the program stores or compares is
ASCII, where character order equals byte order. -/
def ltb : List Char → List Char → Bool
  | [], [] => false
  | [], _ :: _ => true
  | _ :: _, [] => false
  | a :: as, b :: bs =>
    if a.toNat < b.toNat then true
    else if b.toNat < a.toNat then false
    else ltb as bs

/-- String-level textual strict order used by the SQL `>` and `ORDER BY`. -/
def strLtb (a b : String) : Bool := ltb a.data b.data

/-- One row of the `messages` table (src/db.rs schema): columns
`id, imei, imsi, sender, text, timestamp`, the timestamp held as text. -/
structure Row where
  id : Nat
  imei : String
  imsi : String
  sender : String
  text : String
  ts : String
deriving DecidableEq

/-- Model of `SmsMessage` (src/db.rs). -/
structure SmsMessage where
  id : Option Nat
  imei : String
  imsi : String
  sender : String
  text : String
  timestamp : DateTimeUtc
deriving DecidableEq

/-- The row predicate of `Database::message_exists` (src/db.rs): the SQL
matches on `imsi`, `sender`, `text` and the rendered timestamp text. -/
def rowMatches (msg : SmsMessage) (r : Row) : Bool :=
  r.imsi == msg.imsi && r.sender == msg.sender && r.text == msg.text &&
    r.ts == toRfc3339 msg.timestamp

/-- Model of `Database::message_exists` (src/db.rs): `COUNT(*) > 0` over
rows matching `imsi`, `sender`, `text` and timestamp text. -/
def message_exists (msg : SmsMessage) (db : List Row) : Bool :=
  db.any (rowMatches msg)

/-- Model of `Database::insert_message` (src/db.rs): appends a row whose
timestamp column holds `msg.timestamp.to_rfc3339()`; the id models the
`AUTOINCREMENT` primary key of this append-only table. -/
def insert_message (msg : SmsMessage) (db : List Row) : List Row :=
  db ++ [⟨db.length + 1, msg.imei, msg.imsi, msg.sender, msg.text,
    toRfc3339 msg.timestamp⟩]

/-- The WHERE clause built by `Database::build_query` (src/db.rs):
optional `imsi = ?` equality and optional textual `timestamp > ?` with
the bound rendered by `to_rfc3339`. -/
def rowFilter (imsi : Option String) (after : Option DateTimeUtc) (r : Row) : Bool :=
  (match imsi with
   | some i => r.imsi == i
   | none => true) &&
  (match after with
   | some a => strLtb (toRfc3339 a) r.ts
   | none => true)

/-- Insert a row into a list sorted by ascending timestamp text. -/
def insertSorted (r : Row) : List Row → List Row
  | [] => [r]
  | x :: xs => if strLtb x.ts r.ts then x :: insertSorted r xs else r :: x :: xs

/-- The `ORDER BY timestamp ASC` of `Database::build_query`: sorting by
ascending timestamp text under SQLite's bytewise comparison. -/
def sortByTs (l : List Row) : List Row := l.foldr insertSorted []

/-- The row mapping performed by `Database::get_messages` (src/db.rs).
The source reads column index 4 both for the `text` field and for the
string it parses as the timestamp; with columns `0 id, 1 imei, 2 imsi,
3 sender, 4 text, 5 timestamp`, index 4 is the `text` column, so the
parse runs on the message body and the `timestamp` column is never read
back. A parse failure is mapped to a row-conversion error that fails the
whole query (`none` here). -/
def rowToApiMsg (r : Row) : Option SmsMessage :=
  match parse_rfc3339_timestamp r.text with
  | some ts => some ⟨some r.id, r.imei, r.imsi, r.sender, r.text, ts⟩
  | none => none

/-- Model of `Database::get_messages` (src/db.rs): filter, order by
timestamp text ascending, then map each row through `rowToApiMsg`,
failing the whole query on the first row-conversion error. -/
def get_messages_db (db : List Row) (imsi : Option String)
    (after : Option DateTimeUtc) : Option (List SmsMessage) :=
  (sortByTs (db.filter (rowFilter imsi after))).mapM rowToApiMsg

/-- Modem identity as the poller consumes it (src/poller.rs reads
`modem.path`, `modem.imei` and `modem.imsi` from the enumerated modem). -/
structure ModemInfo where
  path : String
  imei : String
  imsi : String
deriving DecidableEq

/-- Model of `SmsInfo` (src/modem.rs): one pending message on a modem. -/
structure SmsInfo where
  sender : String
  text : String
  timestamp : DateTimeUtc
  sms_path : String
deriving DecidableEq

/-- Events recorded while running the poller, in execution order. -/
inductive PollEvent
  | checkExists (res : Option Bool)
  | insertRow (ok : Bool)
  | deleteMsg (modemPath smsPath : String) (ok : Bool)
  | listMessages (modemPath : String) (ok : Bool)
  | processMsg (modemPath smsPath : String)
deriving DecidableEq

/-- Outcomes of the fallible external operations during one
`process_message` call: whether the store exists-check errors, whether
the store insert errors, and whether the modem-side delete errors. -/
structure MsgEnv where
  existsCheckFails : Bool
  insertFails : Bool
  deleteFails : Bool
deriving DecidableEq

/-- The candidate built in step 1 of `SmsPoller::process_message`. -/
def mkCandidate (modem : ModemInfo) (sms : SmsInfo) : SmsMessage :=
  ⟨none, modem.imei, modem.imsi, sms.sender, sms.text, sms.timestamp⟩

/-- Model of `SmsPoller::process_message` (src/poller.rs). Returns the
store state after the call, the events performed in order, and whether
the call returned `Ok`. Control flow as in the source: a failed
exists-check returns the error at once; an existing duplicate is deleted
from the modem with the delete error propagated; otherwise insert, and
only after a successful insert attempt the delete, whose error is
swallowed. -/
def process_message (modem : ModemInfo) (sms : SmsInfo) (db : List Row)
    (env : MsgEnv) : List Row × List PollEvent × Bool :=
  let msg := mkCandidate modem sms
  if env.existsCheckFails then
    (db, [.checkExists none], false)
  else if message_exists msg db then
    (db, [.checkExists (some true),
          .deleteMsg modem.path sms.sms_path (!env.deleteFails)],
     !env.deleteFails)
  else if env.insertFails then
    (db, [.checkExists (some false), .insertRow false], false)
  else
    (insert_message msg db,
     [.checkExists (some false), .insertRow true,
      .deleteMsg modem.path sms.sms_path (!env.deleteFails)],
     true)

/-- Outcomes of the external world during one poll cycle: the result of
modem enumeration, the per-modem message-listing result, and the
per-(modem path, message path) store/delete outcomes. -/
structure CycleEnv where
  listModems : Option (List ModemInfo)
  listMessagesOn : String → Option (List SmsInfo)
  msgEnv : String → String → MsgEnv

/-- The inner per-modem message loop of `SmsPoller::poll_modems`: each
message is processed in order; a processing error is logged and the loop
continues with the next message (the `if let Err` in the source). A
`processMsg` marker is recorded for every invocation of
`process_message`. -/
def run_messages (modem : ModemInfo) (msgs : List SmsInfo) (db : List Row)
    (env : CycleEnv) : List Row × List PollEvent :=
  match msgs with
  | [] => (db, [])
  | sms :: rest =>
    let r := process_message modem sms db (env.msgEnv modem.path sms.sms_path)
    let t := run_messages modem rest r.1 env
    (t.1, .processMsg modem.path sms.sms_path :: (r.2.1 ++ t.2))

/-- The per-modem loop of `SmsPoller::poll_modems`: a failed per-modem
listing is logged and the loop continues with the next modem. -/
def poll_modems_go (env : CycleEnv) : List ModemInfo → List Row →
    List Row × List PollEvent
  | [], db => (db, [])
  | m :: rest, db =>
    match env.listMessagesOn m.path with
    | none =>
      let t := poll_modems_go env rest db
      (t.1, .listMessages m.path false :: t.2)
    | some msgs =>
      let r := run_messages m msgs db env
      let t := poll_modems_go env rest r.1
      (t.1, .listMessages m.path true :: (r.2 ++ t.2))

/-- Model of `SmsPoller::poll_modems` (src/poller.rs). A failed modem
enumeration is logged and the function returns `Ok` with nothing done;
every path returns `Ok` (the Bool result), so the scheduling loop in
`SmsPoller::start` never sees an error from a cycle. -/
def poll_modems (env : CycleEnv) (db : List Row) :
    List Row × List PollEvent × Bool :=
  match env.listModems with
  | none => (db, [], true)
  | some ms =>
    let r := poll_modems_go env ms db
    (r.1, r.2, true)

/-- The pairs (modem path, message path) for which `process_message` was
invoked during a cycle, extracted from the event log. -/
def processedPairs (evs : List PollEvent) : List (String × String) :=
  evs.filterMap fun e =>
    match e with
    | .processMsg a b => some (a, b)
    | _ => none

/-- Raw per-message property values read from one D-Bus SMS object in
`ModemManager::get_messages` (src/modem.rs): sender number, text body,
timestamp string and object path, for a message whose property fetches
succeeded. -/
structure RawSms where
  sender : String
  text : String
  timestampStr : String
  smsPath : String
deriving DecidableEq

/-- The per-message conversion in `ModemManager::get_messages`: parse the
timestamp string; on failure substitute the current instant `now` and
flag a warning. Sender and text are passed through unchanged. -/
def sms_from_raw (now : DateTimeUtc) (r : RawSms) : SmsInfo × Bool :=
  match parse_rfc3339_timestamp r.timestampStr with
  | some dt => (⟨r.sender, r.text, dt, r.smsPath⟩, false)
  | none => (⟨r.sender, r.text, now, r.smsPath⟩, true)

/-- Model of the message loop of `ModemManager::get_messages`
(src/modem.rs): every listed message is converted and returned; the
second component collects the timestamp strings that failed to parse
(the warnings emitted). -/
def modem_get_messages (now : DateTimeUtc) : List RawSms →
    List SmsInfo × List String
  | [] => ([], [])
  | r :: rest =>
    let c := sms_from_raw now r
    let t := modem_get_messages now rest
    (c.1 :: t.1, (if c.2 then [r.timestampStr] else []) ++ t.2)

/-- Two consecutive `process_message` runs for the same transient message
against the same modem: returns the final store state and the two event
logs. Used to state the pipeline idempotence claim. -/
def twoRuns (modem : ModemInfo) (sms : SmsInfo) (db : List Row)
    (env1 env2 : MsgEnv) : List Row × List PollEvent × List PollEvent :=
  let r1 := process_message modem sms db env1
  let r2 := process_message modem sms r1.1 env2
  (r2.1, r1.2.1, r2.2.1)

/-- Existence predicate written from the spec's words (for comparison
with the code): a stored message with the same
`(device_identity, sender, text, timestamp)` 4-tuple, where the device
identity is the IMEI. -/
def specExistsImei (msg : SmsMessage) (db : List Row) : Prop :=
  ∃ r ∈ db, r.imei = msg.imei ∧ r.sender = msg.sender ∧ r.text = msg.text ∧
    r.ts = toRfc3339 msg.timestamp

/-- A sample instant used by concrete witnesses. -/
def dt2024 : DateTimeUtc := ⟨2024, 1, 1, 0, 0, 0, 0⟩

/-- A second sample instant used by concrete witnesses. -/
def dt2030 : DateTimeUtc := ⟨2030, 5, 5, 0, 0, 0, 0⟩

/-- Concrete store row whose text body is an ordinary SMS text. -/
def exRowPlain : Row := ⟨1, "I", "S", "alice", "hello", toRfc3339 dt2024⟩

/-- Concrete store row whose text body happens itself to be a rendered
timestamp different from the row's timestamp column. -/
def exRowTsText : Row := ⟨1, "I", "S", "alice", toRfc3339 dt2030, toRfc3339 dt2024⟩

/-- Concrete row for the exists-check counterexample: IMEI "A",
IMSI "X". -/
def exRowC3 : Row := ⟨1, "A", "X", "s", "t", toRfc3339 dt2024⟩

/-- Concrete candidate for the exists-check counterexample: same IMEI,
sender, text and timestamp as `exRowC3` but a different IMSI. -/
def exMsgC3 : SmsMessage := ⟨none, "A", "Y", "s", "t", dt2024⟩

/-- The row `insert_message` appends matches the candidate's own dedup
key. -/
theorem rowMatches_inserted (msg : SmsMessage) (db : List Row) :
    rowMatches msg ⟨db.length + 1, msg.imei, msg.imsi, msg.sender, msg.text,
      toRfc3339 msg.timestamp⟩ = true := by
  simp [rowMatches]

/-- After inserting a candidate, the exists-check for the same candidate
succeeds. -/
theorem message_exists_after_insert (msg : SmsMessage) (db : List Row) :
    message_exists msg (insert_message msg db) = true := by
  unfold message_exists insert_message
  rw [List.any_append]
  simp [rowMatches]

/-- If the exists-check failed on `db`, the store after inserting the
candidate holds exactly one row with the candidate's dedup key. -/
theorem filter_key_after_insert (msg : SmsMessage) (db : List Row)
    (h : message_exists msg db = false) :
    ((insert_message msg db).filter (rowMatches msg)).length = 1 := by
  have hall : ∀ r ∈ db, ¬ rowMatches msg r = true := by
    intro r hr
    have := List.any_eq_false.mp h r hr
    simpa using this
  have hnil : db.filter (rowMatches msg) = [] := List.filter_eq_nil_iff.mpr hall
  unfold insert_message
  rw [List.filter_append, hnil]
  simp [rowMatches]

/-- C1: Pipeline idempotence at the dedup key. If a first
`process_message` run for a fresh message has a working store (the
exists-check and the insert succeed; the source deletion may fail), then
a second run for the same message over the resulting store leaves exactly
one stored row with the message's dedup key, takes the exists-true
branch, performs no insert, and attempts the source deletion in both
runs. -/
theorem pipeline_idempotent_dedup (modem : ModemInfo) (sms : SmsInfo)
    (db : List Row) (env1 env2 : MsgEnv)
    (h1e : env1.existsCheckFails = false) (h1i : env1.insertFails = false)
    (h2e : env2.existsCheckFails = false)
    (hnew : message_exists (mkCandidate modem sms) db = false) :
    ((twoRuns modem sms db env1 env2).1.filter
        (rowMatches (mkCandidate modem sms))).length = 1 ∧
    PollEvent.checkExists (some true) ∈ (twoRuns modem sms db env1 env2).2.2 ∧
    (∀ ok, PollEvent.insertRow ok ∉ (twoRuns modem sms db env1 env2).2.2) ∧
    (∃ ok, PollEvent.deleteMsg modem.path sms.sms_path ok ∈
      (twoRuns modem sms db env1 env2).2.1) ∧
    (∃ ok, PollEvent.deleteMsg modem.path sms.sms_path ok ∈
      (twoRuns modem sms db env1 env2).2.2) := by
  have hex2 := message_exists_after_insert (mkCandidate modem sms) db
  have hcount := filter_key_after_insert (mkCandidate modem sms) db hnew
  unfold twoRuns process_message
  simp only [h1e, h1i, h2e, hnew, hex2, Bool.false_eq_true, if_false, if_true]
  refine ⟨hcount, by simp, by simp, ⟨!env1.deleteFails, by simp⟩,
    ⟨!env2.deleteFails, by simp⟩⟩

/-- C1 witness: a concrete fresh message processed twice, the first
deletion failing, ends with exactly one matching stored row and deletion
attempted in both runs. -/
theorem pipeline_idempotent_dedup_witness :
    ((twoRuns ⟨"/m0", "I1", "S1"⟩ ⟨"alice", "hi", dt2024, "/sms/1"⟩ []
        ⟨false, false, true⟩ ⟨false, false, false⟩).1.filter
        (rowMatches (mkCandidate ⟨"/m0", "I1", "S1"⟩
          ⟨"alice", "hi", dt2024, "/sms/1"⟩))).length = 1 ∧
    PollEvent.checkExists (some true) ∈
      (twoRuns ⟨"/m0", "I1", "S1"⟩ ⟨"alice", "hi", dt2024, "/sms/1"⟩ []
        ⟨false, false, true⟩ ⟨false, false, false⟩).2.2 ∧
    (∀ ok, PollEvent.insertRow ok ∉
      (twoRuns ⟨"/m0", "I1", "S1"⟩ ⟨"alice", "hi", dt2024, "/sms/1"⟩ []
        ⟨false, false, true⟩ ⟨false, false, false⟩).2.2) ∧
    (∃ ok, PollEvent.deleteMsg "/m0" "/sms/1" ok ∈
      (twoRuns ⟨"/m0", "I1", "S1"⟩ ⟨"alice", "hi", dt2024, "/sms/1"⟩ []
        ⟨false, false, true⟩ ⟨false, false, false⟩).2.1) ∧
    (∃ ok, PollEvent.deleteMsg "/m0" "/sms/1" ok ∈
      (twoRuns ⟨"/m0", "I1", "S1"⟩ ⟨"alice", "hi", dt2024, "/sms/1"⟩ []
        ⟨false, false, true⟩ ⟨false, false, false⟩).2.2) :=
  pipeline_idempotent_dedup ⟨"/m0", "I1", "S1"⟩ ⟨"alice", "hi", dt2024, "/sms/1"⟩
    [] ⟨false, false, true⟩ ⟨false, false, false⟩ rfl rfl rfl (by decide)

/-- C2: Deletion only after durable persistence. In every
`process_message` execution, a source deletion event occurs only if the
exists-check returned true or the insert succeeded; after a failed
exists-check, and after a failed insert on a fresh message, no deletion
is attempted. -/
theorem delete_only_after_persistence (modem : ModemInfo) (sms : SmsInfo)
    (db : List Row) (env : MsgEnv) :
    (∀ p q ok, PollEvent.deleteMsg p q ok ∈ (process_message modem sms db env).2.1 →
      message_exists (mkCandidate modem sms) db = true ∨
      PollEvent.insertRow true ∈ (process_message modem sms db env).2.1) ∧
    (env.existsCheckFails = true →
      ∀ p q ok, PollEvent.deleteMsg p q ok ∉ (process_message modem sms db env).2.1) ∧
    (env.existsCheckFails = false →
      message_exists (mkCandidate modem sms) db = false → env.insertFails = true →
      ∀ p q ok, PollEvent.deleteMsg p q ok ∉ (process_message modem sms db env).2.1) := by
  unfold process_message
  by_cases h1 : env.existsCheckFails <;>
    by_cases h2 : message_exists (mkCandidate modem sms) db <;>
      by_cases h3 : env.insertFails <;>
        simp [h1, h2, h3]

/-- C2 witness: with a failing insert on a fresh concrete message, no
deletion event is recorded. -/
theorem delete_only_after_persistence_witness :
    PollEvent.deleteMsg "/m0" "/sms/1" true ∉
      (process_message ⟨"/m0", "I1", "S1"⟩ ⟨"alice", "hi", dt2024, "/sms/1"⟩ []
        ⟨false, true, false⟩).2.1 :=
  (delete_only_after_persistence ⟨"/m0", "I1", "S1"⟩
    ⟨"alice", "hi", dt2024, "/sms/1"⟩ [] ⟨false, true, false⟩).2.2 rfl (by decide)
    rfl "/m0" "/sms/1" true

/-- C3 counterexample: the exists-check of the store is keyed on the
IMSI column, not on the IMEI device identity. A store holding a row with
the same (IMEI, sender, text, timestamp) 4-tuple as the candidate but a
different IMSI satisfies the spec's 4-tuple predicate while
`message_exists` returns false. -/
theorem message_exists_misses_imei_tuple :
    specExistsImei exMsgC3 [exRowC3] ∧ message_exists exMsgC3 [exRowC3] = false :=
  ⟨⟨exRowC3, by simp, rfl, rfl, rfl, rfl⟩, by decide⟩

/-- C3 (amended): for every candidate and store state, `message_exists`
returns true iff a stored row shares the candidate's
(IMSI, sender, text, rendered timestamp) 4-tuple — the store keys the
device on the IMSI column rather than the IMEI. -/
theorem message_exists_iff_imsi_key (msg : SmsMessage) (db : List Row) :
    message_exists msg db = true ↔
      ∃ r ∈ db, r.imsi = msg.imsi ∧ r.sender = msg.sender ∧ r.text = msg.text ∧
        r.ts = toRfc3339 msg.timestamp := by
  simp [message_exists, rowMatches, List.any_eq_true, and_assoc]

/-- C4 (code bug): `Database::get_messages` reads column index 4 (the
`text` column) as the timestamp string. A stored row with an ordinary
SMS body fails the whole query instead of being returned, and a row
whose body happens to be a rendered timestamp is returned with that body
parsed as its timestamp, not the stored timestamp column. -/
theorem db_get_messages_text_column_bug :
    get_messages_db [exRowPlain] (some "S") none = none ∧
    rowFilter (some "S") none exRowPlain = true ∧
    get_messages_db [exRowTsText] (some "S") none =
      some [⟨some 1, "I", "S", "alice", toRfc3339 dt2030, dt2030⟩] := by
  decide

/-- C8: Timestamp degradation during listing. The modem message loop
returns every listed message; for each message whose timestamp string
fails normalization, the returned entry keeps its sender and text, takes
the current instant as its timestamp, and a warning for that timestamp
string is emitted. -/
theorem modem_listing_degrades (now : DateTimeUtc) (raws : List RawSms) :
    (modem_get_messages now raws).1 = raws.map (fun r => (sms_from_raw now r).1) ∧
    ∀ r ∈ raws, parse_rfc3339_timestamp r.timestampStr = none →
      (⟨r.sender, r.text, now, r.smsPath⟩ : SmsInfo) ∈ (modem_get_messages now raws).1 ∧
      r.timestampStr ∈ (modem_get_messages now raws).2 := by
  induction raws with
  | nil => exact ⟨rfl, by intro r hr; cases hr⟩
  | cons r rest ih =>
    constructor
    · simp [modem_get_messages, ih.1]
    · intro x hx hparse
      rcases List.mem_cons.mp hx with hx | hx
      · subst hx
        constructor
        · simp [modem_get_messages, sms_from_raw, hparse]
        · simp [modem_get_messages, sms_from_raw, hparse]
      · have hr := ih.2 x hx hparse
        constructor
        · exact List.mem_cons_of_mem _ hr.1
        · exact List.mem_append_right _ hr.2

/-- C8 witness: a concrete listing with one unparseable timestamp string
still returns the message, with the current instant substituted and a
warning recorded. -/
theorem modem_listing_degrades_witness :
    (⟨"bob", "yo", dt2024, "/sms/9"⟩ : SmsInfo) ∈
      (modem_get_messages dt2024 [⟨"bob", "yo", "not-a-time", "/sms/9"⟩]).1 ∧
    "not-a-time" ∈ (modem_get_messages dt2024 [⟨"bob", "yo", "not-a-time", "/sms/9"⟩]).2 :=
  (modem_listing_degrades dt2024 [⟨"bob", "yo", "not-a-time", "/sms/9"⟩]).2
    ⟨"bob", "yo", "not-a-time", "/sms/9"⟩ (by simp) (by decide)

/-- The checked index accesses of the offset repair are always in
bounds: the guarded and unguarded forms agree on every character list. -/
theorem fixCharsChecked_eq (l : List Char) :
    fixCharsChecked l = some (fixChars l) := by
  unfold fixCharsChecked fixChars
  by_cases h : l.length < 3
  · simp [h]
  · have e1 : l.length - 3 < l.length := by omega
    have e2 : l.length - 2 < l.length := by omega
    have e3 : l.length - 1 < l.length := by omega
    simp [h, List.get?_eq_getElem?, List.getElem?_eq_getElem, e1, e2, e3,
      List.getD_eq_getElem?_getD]

/-- C10: Normalizer totality. The offset-repair helper performs its three
end-relative character accesses only under the length guard: the
panic-aware variant, whose accesses are checked, never signals an
out-of-bounds access and agrees with the plain function on every string;
on strings shorter than three characters the repair (and hence any
second parse attempt) is skipped. -/
theorem fix_timezone_no_panic (s : String) :
    fixCharsChecked s.data = some (fixChars s.data) ∧
    (s.data.length < 3 → fix_incomplete_timezone s = none) := by
  refine ⟨fixCharsChecked_eq s.data, ?_⟩
  intro h
  simp only [fix_incomplete_timezone, fixChars]
  rw [if_pos h]
  rfl

/-- C10 witness: concrete short and non-ASCII inputs pass the checked
variant and are rejected by the repair. -/
theorem fix_timezone_no_panic_witness :
    fix_incomplete_timezone "ab" = none :=
  (fix_timezone_no_panic "ab").2 (by decide)

/-- Extracting processed-message markers distributes over event-log
concatenation. -/
theorem processedPairs_append (a b : List PollEvent) :
    processedPairs (a ++ b) = processedPairs a ++ processedPairs b := by
  simp [processedPairs]

/-- A processed-message marker at the head of the log contributes its
pair. -/
theorem processedPairs_cons_marker (p q : String) (l : List PollEvent) :
    processedPairs (.processMsg p q :: l) = (p, q) :: processedPairs l := by
  simp [processedPairs]

/-- A listing event at the head of the log contributes nothing. -/
theorem processedPairs_cons_listing (p : String) (ok : Bool) (l : List PollEvent) :
    processedPairs (.listMessages p ok :: l) = processedPairs l := by
  simp [processedPairs]

/-- The events of a single `process_message` call contain no
processed-message marker (the marker is recorded by the enclosing
loop). -/
theorem process_message_no_marker (modem : ModemInfo) (sms : SmsInfo)
    (db : List Row) (env : MsgEnv) :
    processedPairs (process_message modem sms db env).2.1 = [] := by
  unfold process_message
  by_cases h1 : env.existsCheckFails <;>
    by_cases h2 : message_exists (mkCandidate modem sms) db <;>
      by_cases h3 : env.insertFails <;>
        simp [h1, h2, h3, processedPairs]

/-- The per-modem message loop invokes `process_message` for exactly the
listed messages, in order, whatever the store state and the outcome of
each message's own processing. -/
theorem run_messages_markers (modem : ModemInfo) (msgs : List SmsInfo)
    (env : CycleEnv) :
    ∀ db, processedPairs (run_messages modem msgs db env).2 =
      msgs.map (fun s => (modem.path, s.sms_path)) := by
  induction msgs with
  | nil => intro db; rfl
  | cons sms rest ih =>
    intro db
    simp only [run_messages]
    rw [processedPairs_cons_marker, processedPairs_append,
      process_message_no_marker, ih]
    rfl

/-- The modem loop of a cycle reaches every message of every modem whose
listing succeeded, whatever failures other modems or messages hit. -/
theorem poll_modems_go_markers (env : CycleEnv) (ms : List ModemInfo) :
    ∀ db, processedPairs (poll_modems_go env ms db).2 =
      ms.flatMap (fun m =>
        match env.listMessagesOn m.path with
        | some l => l.map (fun s => (m.path, s.sms_path))
        | none => []) := by
  induction ms with
  | nil => intro db; rfl
  | cons m rest ih =>
    intro db
    simp only [poll_modems_go]
    cases h : env.listMessagesOn m.path with
    | none =>
      rw [List.flatMap_cons, h]
      simpa [processedPairs_cons_listing] using ih db
    | some msgs =>
      rw [List.flatMap_cons, h]
      simp only [processedPairs_cons_listing, processedPairs_append,
        run_messages_markers, ih]

/-- C7: Cycle isolation. In one poll cycle, `process_message` is invoked
for exactly the messages of every modem whose listing succeeded — a
failed listing on one modem, or a failed message, never prevents later
modems or messages of the same cycle from being processed — and a cycle
always returns success to the scheduling loop, so a failed modem
enumeration aborts only that cycle, never the loop. -/
theorem cycle_isolation (ms : List ModemInfo)
    (lm : String → Option (List SmsInfo)) (me : String → String → MsgEnv)
    (db : List Row) :
    processedPairs (poll_modems ⟨some ms, lm, me⟩ db).2.1 =
      ms.flatMap (fun m =>
        match lm m.path with
        | some l => l.map (fun s => (m.path, s.sms_path))
        | none => []) ∧
    ∀ (env : CycleEnv) (db2 : List Row), (poll_modems env db2).2.2 = true := by
  constructor
  · exact poll_modems_go_markers ⟨some ms, lm, me⟩ ms db
  · intro env db2
    unfold poll_modems
    cases env.listModems <;> rfl

/-- A successful fixed-width digit scan leaves a suffix of its input. -/
theorem scanNum_suffix (k : Nat) : ∀ (acc : Nat) (s : List Char) (v : Nat)
    (r : List Char), scanNum k acc s = some (v, r) → List.IsSuffix r s := by
  induction k with
  | zero =>
    intro acc s v r h
    simp only [scanNum, Option.some.injEq, Prod.mk.injEq] at h
    obtain ⟨-, rfl⟩ := h
    exact List.suffix_rfl
  | succ k ih =>
    intro acc s v r h
    cases s with
    | nil => simp [scanNum] at h
    | cons c cs =>
      simp only [scanNum] at h
      by_cases hd : c.isDigit
      · rw [if_pos hd] at h
        exact (ih _ _ _ _ h).trans (List.suffix_cons c cs)
      · rw [if_neg hd] at h
        simp at h

/-- A successful expected-character consumption leaves a suffix. -/
theorem expectChar_suffix (c : Char) (s r : List Char)
    (h : expectChar c s = some r) : List.IsSuffix r s := by
  cases s with
  | nil => simp [expectChar] at h
  | cons x xs =>
    simp only [expectChar] at h
    by_cases hx : x = c
    · rw [if_pos hx] at h
      obtain rfl := Option.some.inj h
      exact List.suffix_cons x xs
    · rw [if_neg hx] at h
      simp at h

/-- A successful separator consumption leaves a suffix. -/
theorem scanSep_suffix (s r : List Char) (h : scanSep s = some r) :
    List.IsSuffix r s := by
  cases s with
  | nil => simp [scanSep] at h
  | cons x xs =>
    simp only [scanSep] at h
    by_cases hx : (x = 'T' || x = 't' || x = ' ') = true
    · rw [if_pos hx] at h
      obtain rfl := Option.some.inj h
      exact List.suffix_cons x xs
    · rw [if_neg hx] at h
      simp at h

/-- A successful nanosecond scan leaves a suffix. -/
theorem scanNanos_suffix (s : List Char) (v : Nat) (r : List Char)
    (h : scanNanos s = some (v, r)) : List.IsSuffix r s := by
  simp only [scanNanos] at h
  split_ifs at h with h1
  obtain ⟨-, rfl⟩ := h
  exact ⟨s.takeWhile (·.isDigit), List.takeWhile_append_dropWhile _ s⟩

/-- A successful fraction scan leaves a suffix. -/
theorem scanFrac_suffix (s : List Char) (v : Nat) (r : List Char)
    (h : scanFrac s = some (v, r)) : List.IsSuffix r s := by
  cases s with
  | nil =>
    simp only [scanFrac, Option.some.injEq, Prod.mk.injEq] at h
    obtain ⟨-, rfl⟩ := h
    exact List.suffix_rfl
  | cons x xs =>
    by_cases hx : x = '.'
    · subst hx
      simp only [scanFrac] at h
      exact (scanNanos_suffix xs v r h).trans (List.suffix_cons '.' xs)
    · have hfe : scanFrac (x :: xs) = some (0, x :: xs) := by
        unfold scanFrac
        split
        · simp_all
        · rfl
      rw [hfe] at h
      obtain ⟨-, rfl⟩ := Prod.mk.injEq .. |>.mp (Option.some.inj h)
      exact List.suffix_rfl

/-- A two-digit scan consumes exactly two digit characters. -/
theorem scanNum_two_shape (acc : Nat) (s : List Char) (v : Nat) (r : List Char)
    (h : scanNum 2 acc s = some (v, r)) :
    ∃ a b, s = a :: b :: r ∧ a.isDigit = true ∧ b.isDigit = true := by
  cases s with
  | nil => simp [scanNum] at h
  | cons a s1 =>
    simp only [scanNum] at h
    by_cases hd : a.isDigit
    · rw [if_pos hd] at h
      cases s1 with
      | nil => simp [scanNum] at h
      | cons b s2 =>
        simp only [scanNum] at h
        by_cases hd2 : b.isDigit
        · rw [if_pos hd2] at h
          simp only [scanNum, Option.some.injEq, Prod.mk.injEq] at h
          obtain ⟨-, rfl⟩ := h
          exact ⟨a, b, rfl, hd, hd2⟩
        · rw [if_neg hd2] at h
          simp at h
    · rw [if_neg hd] at h
      simp at h

/-- A successful expected-character consumption pins the head of its
input. -/
theorem expectChar_shape (c : Char) (s r : List Char)
    (h : expectChar c s = some r) : s = c :: r := by
  cases s with
  | nil => simp [expectChar] at h
  | cons x xs =>
    simp only [expectChar] at h
    by_cases hx : x = c
    · rw [if_pos hx] at h
      obtain rfl := Option.some.inj h
      rw [hx]
    · rw [if_neg hx] at h
      simp at h

/-- A final-guard success requires the whole input to have been
consumed. -/
theorem finishParse_consumed (y mo d h mi sec nanos : Nat) (off : Int)
    (s : List Char) (t : DateTimeUtc)
    (hf : finishParse y mo d h mi sec nanos off s = some t) : s = [] := by
  unfold finishParse at hf
  split_ifs at hf with hc
  exact hc.1

/-- A timezone scan that consumes its whole input ends either in a zulu
marker or in a sign, two digits, a colon and two digits. -/
theorem scanOffset_consumed_shape (s : List Char) (off : Int)
    (h : scanOffset s = some (off, [])) :
    s = ['Z'] ∨ s = ['z'] ∨
      ∃ c a b x y, (c = '+' ∨ c = '-') ∧ s = [c, a, b, ':', x, y] := by
  cases s with
  | nil => simp [scanOffset] at h
  | cons c rest =>
    simp only [scanOffset] at h
    split_ifs at h with h1 h2
    · obtain ⟨-, rfl⟩ := Prod.mk.injEq .. |>.mp (Option.some.inj h)
      rcases Bool.or_eq_true _ _ |>.mp h1 with hZ | hz
      · exact Or.inl (by rw [of_decide_eq_true hZ])
      · exact Or.inr (Or.inl (by rw [of_decide_eq_true hz]))
    · split at h
      · simp at h
      · rename_i hh r1 hsn
        split at h
        · simp at h
        · rename_i r2 hec
          split at h
          · simp at h
          · rename_i mm r3 hsn2
            simp only [Option.some.injEq, Prod.mk.injEq] at h
            obtain ⟨-, rfl⟩ := h
            obtain ⟨a, b, rfl, -, -⟩ := scanNum_two_shape _ _ _ _ hsn
            have hr1 := expectChar_shape ':' _ _ hec
            subst hr1
            obtain ⟨x, y, rfl, -, -⟩ := scanNum_two_shape _ _ _ _ hsn2
            refine Or.inr (Or.inr ⟨c, a, b, x, y, ?_, rfl⟩)
            rcases Bool.or_eq_true _ _ |>.mp h2 with hp | hm
            · exact Or.inl (of_decide_eq_true hp)
            · exact Or.inr (of_decide_eq_true hm)

/-- A successful strict RFC 3339 parse ends by consuming a
timezone-shaped tail of the input. -/
theorem parse_consumes_offset_tail (l : List Char) (t : DateTimeUtc)
    (h : parseRfc3339Chars l = some t) :
    ∃ s4 off, List.IsSuffix s4 l ∧ scanOffset s4 = some (off, []) := by
  unfold parseRfc3339Chars at h
  obtain ⟨⟨y, s1⟩, h1, h⟩ := Option.bind_eq_some.mp h
  obtain ⟨s2, h2, h⟩ := Option.bind_eq_some.mp h
  obtain ⟨⟨mo, s3⟩, h3, h⟩ := Option.bind_eq_some.mp h
  obtain ⟨s4, h4, h⟩ := Option.bind_eq_some.mp h
  obtain ⟨⟨d, s5⟩, h5, h⟩ := Option.bind_eq_some.mp h
  obtain ⟨s6, h6, h⟩ := Option.bind_eq_some.mp h
  obtain ⟨⟨hh, s7⟩, h7, h⟩ := Option.bind_eq_some.mp h
  obtain ⟨s8, h8, h⟩ := Option.bind_eq_some.mp h
  obtain ⟨⟨mi, s9⟩, h9, h⟩ := Option.bind_eq_some.mp h
  obtain ⟨s10, h10, h⟩ := Option.bind_eq_some.mp h
  obtain ⟨⟨sec, s11⟩, h11, h⟩ := Option.bind_eq_some.mp h
  obtain ⟨⟨nanos, s12⟩, h12, h⟩ := Option.bind_eq_some.mp h
  obtain ⟨⟨off, s13⟩, h13, h⟩ := Option.bind_eq_some.mp h
  obtain rfl : s13 = [] := finishParse_consumed _ _ _ _ _ _ _ _ _ _ h
  · have hsuf : List.IsSuffix s12 l :=
      ((((((((((((scanFrac_suffix _ _ _ h12).trans
        (scanNum_suffix 2 _ _ _ _ h11)).trans
        (expectChar_suffix _ _ _ h10)).trans
        (scanNum_suffix 2 _ _ _ _ h9)).trans
        (expectChar_suffix _ _ _ h8)).trans
        (scanNum_suffix 2 _ _ _ _ h7)).trans
        (scanSep_suffix _ _ h6)).trans
        (scanNum_suffix 2 _ _ _ _ h5)).trans
        (expectChar_suffix _ _ _ h4)).trans
        (scanNum_suffix 2 _ _ _ _ h3)).trans
        (expectChar_suffix _ _ _ h2)).trans
        (scanNum_suffix 4 _ _ _ _ h1))
    exact ⟨s12, off, hsuf, h13⟩

/-- A string ending in a sign and exactly two digits never passes the
strict RFC 3339 parse: a successful parse ends in `Z`, `z`, or
`sign DD : DD`, none of which has a sign three characters from the
end. -/
theorem parse_none_of_signDD (pre : List Char) (c a b : Char)
    (hc : c = '+' ∨ c = '-') (ha : a.isDigit = true) (hb : b.isDigit = true) :
    parseRfc3339Chars (pre ++ [c, a, b]) = none := by
  cases hp : parseRfc3339Chars (pre ++ [c, a, b]) with
  | none => rfl
  | some t =>
    exfalso
    obtain ⟨s4, off, ⟨t2, ht2⟩, hoff⟩ := parse_consumes_offset_tail _ t hp
    rcases scanOffset_consumed_shape s4 off hoff with rfl | rfl | hshape
    · have h1 : (t2 ++ ['Z']).getLast? = some 'Z' := by simp
      rw [ht2] at h1
      have h2 : (pre ++ [c, a, b]).getLast? = some b := by
        have e : pre ++ [c, a, b] = (pre ++ [c, a]) ++ [b] := by simp
        rw [e]; simp
      rw [h1] at h2
      obtain rfl := Option.some.inj h2
      exact absurd hb (by decide)
    · have h1 : (t2 ++ ['z']).getLast? = some 'z' := by simp
      rw [ht2] at h1
      have h2 : (pre ++ [c, a, b]).getLast? = some b := by
        have e : pre ++ [c, a, b] = (pre ++ [c, a]) ++ [b] := by simp
        rw [e]; simp
      rw [h1] at h2
      obtain rfl := Option.some.inj h2
      exact absurd hb (by decide)
    · obtain ⟨c2, a2, b2, x, y, -, rfl⟩ := hshape
      have hrev := congrArg List.reverse ht2
      simp only [List.reverse_append, List.reverse_cons, List.reverse_nil,
        List.nil_append, List.cons_append, List.append_assoc,
        List.cons.injEq] at hrev
      obtain ⟨-, -, hcol, -⟩ := hrev
      rcases hc with rfl | rfl
      · exact absurd hcol (by decide)
      · exact absurd hcol (by decide)

/-- A string ending in a sign and two digits is repaired by appending a
zero-minutes suffix. -/
theorem fixChars_signDD (pre : List Char) (c a b : Char)
    (hc : c = '+' ∨ c = '-') (ha : a.isDigit = true) (hb : b.isDigit = true) :
    fixChars (pre ++ [c, a, b]) = some (pre ++ [c, a, b] ++ [':', '0', '0']) := by
  unfold fixChars
  have hlen : (pre ++ [c, a, b]).length = pre.length + 3 := by simp
  rw [hlen]
  rw [if_neg (by omega)]
  have g1 : (pre ++ [c, a, b]).getD (pre.length + 3 - 3) ' ' = c := by
    simp only [Nat.add_sub_cancel]
    rw [List.getD_eq_getElem?_getD, List.getElem?_append_right (by omega)]
    simp
  have g2 : (pre ++ [c, a, b]).getD (pre.length + 3 - 2) ' ' = a := by
    have e : pre.length + 3 - 2 = pre.length + 1 := by omega
    rw [e, List.getD_eq_getElem?_getD, List.getElem?_append_right (by omega)]
    simp
  have g3 : (pre ++ [c, a, b]).getD (pre.length + 3 - 1) ' ' = b := by
    have e : pre.length + 3 - 1 = pre.length + 2 := by omega
    rw [e, List.getD_eq_getElem?_getD, List.getElem?_append_right (by omega)]
    simp
  rw [g1, g2, g3]
  rw [if_pos]
  rcases hc with rfl | rfl <;> simp [ha, hb]

/-- C5 counterexample: the claim's unconditional success fails. The
string "abc+01" ends in a sign followed by exactly two digits and no
further offset digits, yet the normalizer fails on it (the repaired
string "abc+01:00" does not parse either). -/
theorem normalizer_signDD_counterexample :
    (∃ pre c a b, ("abc+01").data = pre ++ [c, a, b] ∧ (c = '+' ∨ c = '-') ∧
      a.isDigit = true ∧ b.isDigit = true) ∧
    parse_rfc3339_timestamp "abc+01" = none :=
  ⟨⟨['a', 'b', 'c'], '+', '0', '1', by decide, Or.inl rfl, by decide, by decide⟩,
    by decide⟩

/-- C5 (amended): for every string ending in a sign followed by exactly
two digits, whenever the strict parse of the string with `:00` appended
succeeds, the normalizer succeeds on the original string with exactly
that result (the strict parse of the original string itself always
fails, so the repair path is taken). -/
theorem normalizer_two_digit_offset_repair (s : String) (pre : List Char)
    (c a b : Char) (hs : s.data = pre ++ [c, a, b]) (hc : c = '+' ∨ c = '-')
    (ha : a.isDigit = true) (hb : b.isDigit = true) (t : DateTimeUtc)
    (hp : parseRfc3339Chars (s.data ++ [':', '0', '0']) = some t) :
    parse_rfc3339_timestamp s = some t := by
  have hnone : parseRfc3339Chars s.data = none := by
    rw [hs]; exact parse_none_of_signDD pre c a b hc ha hb
  have hfix : fixChars s.data = some (s.data ++ [':', '0', '0']) := by
    rw [hs]; exact fixChars_signDD pre c a b hc ha hb
  unfold parse_rfc3339_timestamp
  rw [hnone, hfix]
  exact hp

/-- C5 witness: the spec's example, `"2024-01-01T10:00:00+01"`,
normalizes to the instant `2024-01-01T09:00:00Z`. -/
theorem normalizer_two_digit_offset_repair_witness :
    parse_rfc3339_timestamp "2024-01-01T10:00:00+01" =
      some ⟨2024, 1, 1, 9, 0, 0, 0⟩ :=
  normalizer_two_digit_offset_repair "2024-01-01T10:00:00+01"
    ['2', '0', '2', '4', '-', '0', '1', '-', '0', '1', 'T', '1', '0', ':',
     '0', '0', ':', '0', '0'] '+' '0' '1' (by decide) (Or.inl rfl) (by decide)
    (by decide) ⟨2024, 1, 1, 9, 0, 0, 0⟩ (by decide)

/-- Numeric value of `10 ^ 2`. -/
theorem pow10_2 : (10 : Nat) ^ 2 = 100 := by norm_num

/-- Numeric value of `10 ^ 3`. -/
theorem pow10_3 : (10 : Nat) ^ 3 = 1000 := by norm_num

/-- Numeric value of `10 ^ 4`. -/
theorem pow10_4 : (10 : Nat) ^ 4 = 10000 := by norm_num

/-- Numeric value of `10 ^ 6`. -/
theorem pow10_6 : (10 : Nat) ^ 6 = 1000000 := by norm_num

/-- Numeric value of `10 ^ 9`. -/
theorem pow10_9 : (10 : Nat) ^ 9 = 1000000000 := by norm_num

/-- The rendered digit of a value below ten is an ASCII digit. -/
theorem digitChar_isDigit (m : Nat) (h : m < 10) : (digitChar m).isDigit = true := by
  unfold digitChar
  interval_cases m <;> decide

/-- Code point of a rendered digit. -/
theorem digitChar_toNat (m : Nat) (h : m < 10) : (digitChar m).toNat = 48 + m := by
  unfold digitChar
  interval_cases m <;> decide

/-- Scanning the fixed-width rendering of a value recovers the value and
leaves the rest untouched. -/
theorem scanNum_padDigits (k : Nat) : ∀ (acc n : Nat) (r : List Char),
    n < 10 ^ k →
    scanNum k acc (padDigits k n ++ r) = some (acc * 10 ^ k + n, r) := by
  induction k with
  | zero =>
    intro acc n r h
    have hn0 : n = 0 := by omega
    subst hn0
    simp [padDigits, scanNum]
  | succ k ih =>
    intro acc n r h
    have hd : n / 10 ^ k < 10 := by
      refine Nat.div_lt_of_lt_mul ?_
      exact lt_of_lt_of_eq h (pow_succ 10 k)
    have hmod : n % 10 ^ k < 10 ^ k := Nat.mod_lt _ (by positivity)
    simp only [padDigits, List.cons_append, scanNum]
    rw [if_pos (digitChar_isDigit _ hd), digitChar_toNat _ hd]
    rw [Nat.add_sub_cancel_left]
    rw [ih (acc * 10 + n / 10 ^ k) (n % 10 ^ k) r hmod]
    have hn := Nat.div_add_mod n (10 ^ k)
    have heq : (acc * 10 + n / 10 ^ k) * 10 ^ k + n % 10 ^ k =
        acc * 10 ^ (k + 1) + n := by
      calc (acc * 10 + n / 10 ^ k) * 10 ^ k + n % 10 ^ k
          = acc * (10 ^ k * 10) + (10 ^ k * (n / 10 ^ k) + n % 10 ^ k) := by ring
        _ = acc * 10 ^ (k + 1) + n := by rw [hn, pow_succ]
    rw [heq]

/-- Zero-accumulator form of `scanNum_padDigits`. -/
theorem scanNum_pad0 (k n : Nat) (r : List Char) (h : n < 10 ^ k) :
    scanNum k 0 (padDigits k n ++ r) = some (n, r) := by
  have := scanNum_padDigits k 0 n r h
  simpa using this

/-- Folding the digit values of a fixed-width rendering recovers the
value. -/
theorem digitsVal_go (k : Nat) : ∀ (acc n : Nat), n < 10 ^ k →
    (padDigits k n).foldl (fun a c => a * 10 + (c.toNat - 48)) acc =
      acc * 10 ^ k + n := by
  induction k with
  | zero =>
    intro acc n h
    have hn0 : n = 0 := by omega
    subst hn0
    simp [padDigits]
  | succ k ih =>
    intro acc n h
    have hd : n / 10 ^ k < 10 := by
      refine Nat.div_lt_of_lt_mul ?_
      exact lt_of_lt_of_eq h (pow_succ 10 k)
    have hmod : n % 10 ^ k < 10 ^ k := Nat.mod_lt _ (by positivity)
    simp only [padDigits, List.foldl_cons]
    rw [digitChar_toNat _ hd, Nat.add_sub_cancel_left]
    rw [ih (acc * 10 + n / 10 ^ k) (n % 10 ^ k) hmod]
    have hn := Nat.div_add_mod n (10 ^ k)
    calc (acc * 10 + n / 10 ^ k) * 10 ^ k + n % 10 ^ k
        = acc * (10 ^ k * 10) + (10 ^ k * (n / 10 ^ k) + n % 10 ^ k) := by ring
      _ = acc * 10 ^ (k + 1) + n := by rw [hn, pow_succ]

/-- The digit value of a fixed-width rendering. -/
theorem digitsVal_padDigits (k n : Nat) (h : n < 10 ^ k) :
    digitsVal (padDigits k n) = n := by
  unfold digitsVal
  simpa using digitsVal_go k 0 n h

/-- Length of a fixed-width rendering. -/
theorem padDigits_length (k : Nat) : ∀ n, (padDigits k n).length = k := by
  induction k with
  | zero => intro n; rfl
  | succ k ih => intro n; simp [padDigits, ih]

/-- Every character of a fixed-width rendering is a digit. -/
theorem padDigits_isDigit (k : Nat) : ∀ n, n < 10 ^ k →
    ∀ c ∈ padDigits k n, c.isDigit = true := by
  induction k with
  | zero => intro n h c hc; simp [padDigits] at hc
  | succ k ih =>
    intro n h c hc
    have hd : n / 10 ^ k < 10 := by
      refine Nat.div_lt_of_lt_mul ?_
      exact lt_of_lt_of_eq h (pow_succ 10 k)
    simp only [padDigits, List.mem_cons] at hc
    rcases hc with rfl | hc
    · exact digitChar_isDigit _ hd
    · exact ih _ (Nat.mod_lt _ (by positivity)) c hc

/-- A take-while scan passes over a block that satisfies the
predicate. -/
theorem takeWhile_append_of_all (p : Char → Bool) (l1 l2 : List Char)
    (h : ∀ c ∈ l1, p c = true) :
    (l1 ++ l2).takeWhile p = l1 ++ l2.takeWhile p := by
  induction l1 with
  | nil => simp
  | cons c t ih => simp [h c (by simp), ih (fun x hx => h x (by simp [hx]))]

/-- A drop-while scan passes over a block that satisfies the
predicate. -/
theorem dropWhile_append_of_all (p : Char → Bool) (l1 l2 : List Char)
    (h : ∀ c ∈ l1, p c = true) :
    (l1 ++ l2).dropWhile p = l2.dropWhile p := by
  induction l1 with
  | nil => simp
  | cons c t ih => simp [h c (by simp), ih (fun x hx => h x (by simp [hx]))]

/-- Expected-character consumption succeeds on its own character. -/
theorem expectChar_self (c : Char) (r : List Char) :
    expectChar c (c :: r) = some r := by
  simp [expectChar]

/-- The separator scan consumes a capital `T`. -/
theorem scanSep_T (r : List Char) : scanSep ('T' :: r) = some r := by
  simp [scanSep]

/-- The nanosecond scan over a digit block followed by a non-digit tail
returns the scaled block value. -/
theorem scanNanos_frac (ds r : List Char) (hne : ds ≠ [])
    (hdig : ∀ c ∈ ds, c.isDigit = true) (hlen : ds.length ≤ 9)
    (hrt : r.takeWhile (fun c => c.isDigit) = [])
    (hrd : r.dropWhile (fun c => c.isDigit) = r) :
    scanNanos (ds ++ r) = some (digitsVal ds * 10 ^ (9 - ds.length), r) := by
  simp only [scanNanos]
  rw [takeWhile_append_of_all _ _ _ hdig, dropWhile_append_of_all _ _ _ hdig,
    hrt, hrd, List.append_nil]
  rw [if_neg (by simpa [List.isEmpty_iff] using hne)]
  rw [List.take_of_length_le hlen]

/-- The fraction scan reduces on a leading dot. -/
theorem scanFrac_dot (l : List Char) : scanFrac ('.' :: l) = scanNanos l := rfl

/-- The canonical offset suffix contains no digits at its head. -/
theorem offsetUtc_takeWhile :
    offsetUtcChars.takeWhile (fun c => c.isDigit) = [] := rfl

/-- Dropping digits from the canonical offset suffix keeps it intact. -/
theorem offsetUtc_dropWhile :
    offsetUtcChars.dropWhile (fun c => c.isDigit) = offsetUtcChars := rfl

/-- The fraction scan inverts the fraction rendering for any nanosecond
value below one second. -/
theorem scanFrac_fracChars (n : Nat) (hn : n < 1000000000) :
    scanFrac (fracChars n ++ offsetUtcChars) = some (n, offsetUtcChars) := by
  by_cases h0 : n = 0
  · subst h0
    rfl
  · unfold fracChars
    rw [if_neg (by simpa using h0)]
    by_cases h6 : n % 1000000 = 0
    · rw [if_pos (by simpa using h6)]
      have hm : n / 1000000 < 10 ^ 3 := by
        rw [pow10_3]
        omega
      rw [List.cons_append, scanFrac_dot]
      rw [scanNanos_frac (padDigits 3 (n / 1000000)) offsetUtcChars
        (by have := padDigits_length 3 (n / 1000000); intro he; rw [he] at this; simp at this)
        (padDigits_isDigit 3 _ hm) (by rw [padDigits_length]; omega)
        offsetUtc_takeWhile offsetUtc_dropWhile]
      rw [digitsVal_padDigits 3 _ hm, padDigits_length]
      have : n / 1000000 * 10 ^ (9 - 3) = n := by
        have h9 : (10 : Nat) ^ (9 - 3) = 1000000 := by norm_num
        rw [h9]
        exact Nat.div_mul_cancel (Nat.dvd_of_mod_eq_zero h6)
      rw [this]
    · rw [if_neg (by simpa using h6)]
      by_cases h3 : n % 1000 = 0
      · rw [if_pos (by simpa using h3)]
        have hm : n / 1000 < 10 ^ 6 := by
          rw [pow10_6]
          omega
        rw [List.cons_append, scanFrac_dot]
        rw [scanNanos_frac (padDigits 6 (n / 1000)) offsetUtcChars
          (by have := padDigits_length 6 (n / 1000); intro he; rw [he] at this; simp at this)
          (padDigits_isDigit 6 _ hm) (by rw [padDigits_length]; omega)
          offsetUtc_takeWhile offsetUtc_dropWhile]
        rw [digitsVal_padDigits 6 _ hm, padDigits_length]
        have : n / 1000 * 10 ^ (9 - 6) = n := by
          have h9 : (10 : Nat) ^ (9 - 6) = 1000 := by norm_num
          rw [h9]
          exact Nat.div_mul_cancel (Nat.dvd_of_mod_eq_zero h3)
        rw [this]
      · rw [if_neg (by simpa using h3)]
        have hm : n < 10 ^ 9 := by rw [pow10_9]; omega
        rw [List.cons_append, scanFrac_dot]
        rw [scanNanos_frac (padDigits 9 n) offsetUtcChars
          (by have := padDigits_length 9 n; intro he; rw [he] at this; simp at this)
          (padDigits_isDigit 9 _ hm) (by rw [padDigits_length])
          offsetUtc_takeWhile offsetUtc_dropWhile]
        rw [digitsVal_padDigits 9 _ hm, padDigits_length]
        norm_num

/-- The offset scan consumes the canonical UTC suffix with offset
zero. -/
theorem scanOffset_utc : scanOffset offsetUtcChars = some (0, []) := by decide

/-- Applying a zero offset is the identity on the civil fields. -/
theorem applyOffset_zero (y mo d h mi s n : Nat) (hh : h ≤ 23) (hmi : mi ≤ 59)
    (hs : s ≤ 59) :
    applyOffset y mo d h mi s n 0 = some ⟨y, mo, d, h, mi, s, n⟩ := by
  simp only [applyOffset]
  rw [if_pos (by constructor <;> omega)]
  simp only [Option.some.injEq, DateTimeUtc.mk.injEq, eq_self_iff_true,
    true_and, and_true]
  refine ⟨?_, ?_, ?_⟩ <;> omega

/-- Every month length is at most thirty-one days. -/
theorem daysInMonth_le (y m : Nat) : daysInMonth y m ≤ 31 := by
  unfold daysInMonth
  split_ifs <;> omega

/-- The strict parse inverts the canonical rendering on every valid
instant. -/
theorem parseRfc3339_render (t : DateTimeUtc) (hv : ValidDT t) :
    parseRfc3339Chars (toRfc3339Chars t) = some t := by
  obtain ⟨y, mo, d, h, mi, sec, n⟩ := t
  obtain ⟨hy, hmo1, hmo2, hd1, hd2, hh, hmi, hsec, hn⟩ := hv
  dsimp only at hy hmo1 hmo2 hd1 hd2 hh hmi hsec hn
  have h31 := daysInMonth_le y mo
  unfold toRfc3339Chars parseRfc3339Chars
  rw [scanNum_pad0 4 y _ (by rw [pow10_4]; omega)]
  simp only [Option.bind_eq_bind, Option.some_bind]
  rw [expectChar_self]
  simp only [Option.bind_eq_bind, Option.some_bind]
  rw [scanNum_pad0 2 mo _ (by rw [pow10_2]; omega)]
  simp only [Option.bind_eq_bind, Option.some_bind]
  rw [expectChar_self]
  simp only [Option.bind_eq_bind, Option.some_bind]
  rw [scanNum_pad0 2 d _ (by rw [pow10_2]; omega)]
  simp only [Option.bind_eq_bind, Option.some_bind]
  rw [scanSep_T]
  simp only [Option.bind_eq_bind, Option.some_bind]
  rw [scanNum_pad0 2 h _ (by rw [pow10_2]; omega)]
  simp only [Option.bind_eq_bind, Option.some_bind]
  rw [expectChar_self]
  simp only [Option.bind_eq_bind, Option.some_bind]
  rw [scanNum_pad0 2 mi _ (by rw [pow10_2]; omega)]
  simp only [Option.bind_eq_bind, Option.some_bind]
  rw [expectChar_self]
  simp only [Option.bind_eq_bind, Option.some_bind]
  rw [scanNum_pad0 2 sec _ (by rw [pow10_2]; omega)]
  simp only [Option.bind_eq_bind, Option.some_bind]
  rw [scanFrac_fracChars n hn]
  simp only [Option.bind_eq_bind, Option.some_bind]
  rw [scanOffset_utc]
  simp only [Option.bind_eq_bind, Option.some_bind]
  unfold finishParse
  rw [if_pos ⟨rfl, hmo1, hmo2, hd1, hd2, hh, hmi, hsec, by norm_num, by norm_num⟩]
  exact applyOffset_zero y mo d h mi sec n hh hmi hsec

/-- C6: Normalizer round-trip and determinism. Normalizing the canonical
rendered form of any valid UTC instant yields exactly that instant, and
the normalizer is a function of its input alone: equal inputs always
yield equal results (purity and determinism are inherent in the
embedding, where the function has no state to read). -/
theorem normalizer_roundtrip (t : DateTimeUtc) (hv : ValidDT t) :
    parse_rfc3339_timestamp (toRfc3339 t) = some t ∧
    ∀ (s : String) (r1 r2 : Option DateTimeUtc),
      parse_rfc3339_timestamp s = r1 → parse_rfc3339_timestamp s = r2 →
      r1 = r2 := by
  constructor
  · unfold parse_rfc3339_timestamp toRfc3339
    rw [show (String.mk (toRfc3339Chars t)).data = toRfc3339Chars t from rfl]
    rw [parseRfc3339_render t hv]
  · intro s r1 r2 e1 e2
    rw [← e1, ← e2]

/-- C6 witness: a concrete instant with a fractional second
round-trips. -/
theorem normalizer_roundtrip_witness :
    parse_rfc3339_timestamp (toRfc3339 ⟨2024, 1, 1, 9, 0, 0, 123456789⟩) =
      some ⟨2024, 1, 1, 9, 0, 0, 123456789⟩ :=
  (normalizer_roundtrip ⟨2024, 1, 1, 9, 0, 0, 123456789⟩ (by decide)).1

/-- The textual comparison is irreflexive. -/
theorem ltb_irrefl (l : List Char) : ltb l l = false := by
  induction l with
  | nil => rfl
  | cons c t ih => simp [ltb, ih]

/-- Characters with equal code points are equal. -/
theorem char_eq_of_toNat (a b : Char) (h : a.toNat = b.toNat) : a = b := by
  have hv : a.val = b.val := by
    unfold Char.toNat at h
    exact UInt32.toNat.inj h
  exact Char.eq_of_val_eq hv

/-- Comparing equal-length blocks followed by tails: the blocks decide
the comparison unless they are equal, in which case the tails decide. -/
theorem ltb_append (l1 : List Char) : ∀ (l2 r1 r2 : List Char),
    l1.length = l2.length →
    ltb (l1 ++ r1) (l2 ++ r2) = if l1 = l2 then ltb r1 r2 else ltb l1 l2 := by
  induction l1 with
  | nil =>
    intro l2 r1 r2 h
    have h2 : l2 = [] := by
      cases l2 with
      | nil => rfl
      | cons b bs => simp at h
    subst h2
    simp
  | cons a as ih =>
    intro l2 r1 r2 h
    cases l2 with
    | nil => simp at h
    | cons b bs =>
      simp only [List.cons_append, ltb, List.append_eq]
      by_cases hab : a.toNat < b.toNat
      · have hne : ¬(a :: as = b :: bs) := by
          intro he
          have hab2 : a = b := (List.cons.injEq .. |>.mp he).1
          rw [hab2] at hab
          omega
        rw [if_pos hab, if_neg hne]
        simp [ltb, hab]
      · by_cases hba : b.toNat < a.toNat
        · have hne : ¬(a :: as = b :: bs) := by
            intro he
            have hab2 : a = b := (List.cons.injEq .. |>.mp he).1
            rw [hab2] at hba
            omega
          rw [if_neg hab, if_pos hba, if_neg hne]
          simp [ltb, hab, hba]
        · have heq : a = b := char_eq_of_toNat a b (by omega)
          subst heq
          rw [if_neg hab, if_neg hba]
          rw [ih bs r1 r2 (by simpa using h)]
          simp only [List.cons.injEq, true_and]
          by_cases he : as = bs
          · rw [if_pos he, if_pos he]
          · rw [if_neg he, if_neg he]
            simp [ltb]

/-- Fixed-width renderings compare exactly as their values. -/
theorem ltb_padDigits (k : Nat) : ∀ n m, n < 10 ^ k → m < 10 ^ k →
    ltb (padDigits k n) (padDigits k m) = decide (n < m) := by
  induction k with
  | zero =>
    intro n m hn hm
    have hn0 : n = 0 := by omega
    have hm0 : m = 0 := by omega
    subst hn0
    subst hm0
    rfl
  | succ k ih =>
    intro n m hn hm
    have hdn : n / 10 ^ k < 10 := by
      refine Nat.div_lt_of_lt_mul ?_
      exact lt_of_lt_of_eq hn (pow_succ 10 k)
    have hdm : m / 10 ^ k < 10 := by
      refine Nat.div_lt_of_lt_mul ?_
      exact lt_of_lt_of_eq hm (pow_succ 10 k)
    simp only [padDigits, ltb]
    rw [digitChar_toNat _ hdn, digitChar_toNat _ hdm]
    by_cases hlt : n / 10 ^ k < m / 10 ^ k
    · rw [if_pos (by omega)]
      exact (decide_eq_true (Nat.lt_of_div_lt_div hlt)).symm
    · by_cases hgt : m / 10 ^ k < n / 10 ^ k
      · rw [if_neg (by omega), if_pos (by omega)]
        have hmn := Nat.lt_of_div_lt_div hgt
        exact (decide_eq_false (by omega)).symm
      · have heq : n / 10 ^ k = m / 10 ^ k := by omega
        rw [if_neg (by omega), if_neg (by omega)]
        rw [ih (n % 10 ^ k) (m % 10 ^ k) (Nat.mod_lt _ (by positivity))
          (Nat.mod_lt _ (by positivity))]
        refine decide_eq_decide.mpr ?_
        constructor
        · intro hmod
          calc n = 10 ^ k * (n / 10 ^ k) + n % 10 ^ k := (Nat.div_add_mod n _).symm
            _ < 10 ^ k * (m / 10 ^ k) + m % 10 ^ k := by
                rw [heq]; exact Nat.add_lt_add_left hmod _
            _ = m := Nat.div_add_mod m _
        · intro hnm
          by_contra hc
          have hle : m % 10 ^ k ≤ n % 10 ^ k := Nat.not_lt.mp hc
          have hmlen : m ≤ n := by
            calc m = 10 ^ k * (m / 10 ^ k) + m % 10 ^ k := (Nat.div_add_mod m _).symm
              _ ≤ 10 ^ k * (n / 10 ^ k) + n % 10 ^ k := by
                  rw [← heq]; exact Nat.add_le_add_left hle _
              _ = n := Nat.div_add_mod n _
          omega

/-- Fixed-width renderings of bounded values are injective. -/
theorem padDigits_inj (k n m : Nat) (hn : n < 10 ^ k) (hm : m < 10 ^ k)
    (h : padDigits k n = padDigits k m) : n = m := by
  by_contra hne
  rcases Nat.lt_or_ge n m with hlt | hge
  · have hc := ltb_padDigits k n m hn hm
    rw [h, ltb_irrefl] at hc
    simp [hlt] at hc
  · have hgt : m < n := by omega
    have hc := ltb_padDigits k m n hm hn
    rw [← h, ltb_irrefl] at hc
    simp [hgt] at hc

/-- A fixed-width rendering splits into the renderings of the leading
and trailing digit groups. -/
theorem padDigits_split (a : Nat) : ∀ (b x : Nat), x < 10 ^ (a + b) →
    padDigits (a + b) x =
      padDigits a (x / 10 ^ b) ++ padDigits b (x % 10 ^ b) := by
  induction a with
  | zero =>
    intro b x hx
    rw [Nat.zero_add] at hx ⊢
    simp only [padDigits, List.nil_append]
    rw [Nat.mod_eq_of_lt hx]
  | succ a ih =>
    intro b x hx
    have hrw : a + 1 + b = (a + b) + 1 := by omega
    rw [hrw] at hx ⊢
    simp only [padDigits, List.cons_append]
    congr 1
    · congr 1
      rw [Nat.div_div_eq_div_mul, ← pow_add, Nat.add_comm b a]
    · rw [ih b (x % 10 ^ (a + b)) (Nat.mod_lt _ (by positivity))]
      congr 1
      · congr 1
        have he : (10 : Nat) ^ (a + b) = 10 ^ b * 10 ^ a := by
          rw [← pow_add, Nat.add_comm b a]
        rw [he, Nat.mod_mul_right_div_self]
      · congr 1
        exact Nat.mod_mod_of_dvd x (pow_dvd_pow 10 (by omega))

/-- Equal heads defer the comparison to the tails. -/
theorem ltb_cons (c : Char) (x y : List Char) :
    ltb (c :: x) (c :: y) = ltb x y := by
  simp [ltb]

/-- A strictly smaller head decides the comparison. -/
theorem ltb_lt_head (a b : Char) (x y : List Char) (h : a.toNat < b.toNat) :
    ltb (a :: x) (b :: y) = true := by
  unfold ltb
  rw [if_pos h]

/-- A strictly larger head decides the comparison. -/
theorem ltb_gt_head (a b : Char) (x y : List Char) (h : b.toNat < a.toNat) :
    ltb (a :: x) (b :: y) = false := by
  unfold ltb
  rw [if_neg (by omega), if_pos h]

/-- The offset suffix, which starts with a plus sign, compares below any
nonempty digit block. -/
theorem ltb_off_pad (k w : Nat) (hk : k ≠ 0) (hw : w < 10 ^ k)
    (r : List Char) : ltb offsetUtcChars (padDigits k w ++ r) = true := by
  cases k with
  | zero => omega
  | succ e =>
    have hd : w / 10 ^ e < 10 := by
      refine Nat.div_lt_of_lt_mul ?_
      exact lt_of_lt_of_eq hw (pow_succ 10 e)
    have hshape : padDigits (e + 1) w ++ r =
        digitChar (w / 10 ^ e) :: (padDigits e (w % 10 ^ e) ++ r) := by
      simp [padDigits]
    rw [hshape, show offsetUtcChars = '+' :: ['0', '0', ':', '0', '0'] from rfl]
    apply ltb_lt_head
    rw [digitChar_toNat _ hd, show ('+' : Char).toNat = 43 from rfl]
    exact lt_of_lt_of_le (by norm_num) (Nat.le_add_right 48 _)

/-- A nonempty digit block compares above the offset suffix. -/
theorem ltb_pad_off_false (k w : Nat) (hk : k ≠ 0) (hw : w < 10 ^ k)
    (r : List Char) : ltb (padDigits k w ++ r) offsetUtcChars = false := by
  cases k with
  | zero => omega
  | succ e =>
    have hd : w / 10 ^ e < 10 := by
      refine Nat.div_lt_of_lt_mul ?_
      exact lt_of_lt_of_eq hw (pow_succ 10 e)
    have hshape : padDigits (e + 1) w ++ r =
        digitChar (w / 10 ^ e) :: (padDigits e (w % 10 ^ e) ++ r) := by
      simp [padDigits]
    rw [hshape, show offsetUtcChars = '+' :: ['0', '0', ':', '0', '0'] from rfl]
    apply ltb_gt_head
    rw [digitChar_toNat _ hd, show ('+' : Char).toNat = 43 from rfl]
    exact lt_of_lt_of_le (by norm_num) (Nat.le_add_right 48 _)

/-- The offset suffix compares below a fraction that starts with a
dot. -/
theorem ltb_off_dot (l : List Char) : ltb offsetUtcChars ('.' :: l) = true := rfl

/-- A fraction starting with a dot compares above the offset suffix. -/
theorem ltb_dot_off (l : List Char) : ltb ('.' :: l) offsetUtcChars = false := rfl

/-- Equal-length digit groups before the offset suffix compare as their
values. -/
theorem ltb_pad_off (k u v : Nat) (hu : u < 10 ^ k) (hv : v < 10 ^ k) :
    ltb (padDigits k u ++ offsetUtcChars) (padDigits k v ++ offsetUtcChars) =
      decide (u < v) := by
  rw [ltb_append _ _ _ _ (by rw [padDigits_length, padDigits_length])]
  by_cases he : padDigits k u = padDigits k v
  · rw [if_pos he, ltb_irrefl]
    have := padDigits_inj k u v hu hv he
    simp [this]
  · rw [if_neg he, ltb_padDigits k u v hu hv]

/-- Rendered fractional seconds followed by the offset suffix compare as
their nanosecond values, for every pair of nanosecond values below one
second. -/
theorem ltb_frac (n m : Nat) (hn : n < 1000000000) (hm : m < 1000000000) :
    ltb (fracChars n ++ offsetUtcChars) (fracChars m ++ offsetUtcChars) =
      decide (n < m) := by
  by_cases hn0 : n = 0
  · subst hn0
    by_cases hm0 : m = 0
    · subst hm0
      rw [ltb_irrefl]
      simp
    · rw [show fracChars 0 = [] from rfl, List.nil_append]
      rw [(decide_eq_true (show 0 < m by omega) : decide (0 < m) = true)]
      unfold fracChars
      rw [if_neg (by simpa using hm0)]
      split_ifs <;> (simp only [List.cons_append]; exact ltb_off_dot _)
  · by_cases hm0 : m = 0
    · subst hm0
      rw [show fracChars 0 = [] from rfl, List.nil_append]
      rw [(decide_eq_false (show ¬ n < 0 by omega) : decide (n < 0) = false)]
      unfold fracChars
      rw [if_neg (by simpa using hn0)]
      split_ifs <;> (simp only [List.cons_append]; exact ltb_dot_off _)
    · unfold fracChars
      rw [if_neg (show ¬((n == 0) = true) by simpa using hn0),
        if_neg (show ¬((m == 0) = true) by simpa using hm0)]
      by_cases h6n : n % 1000000 = 0
      · rw [if_pos (show (n % 1000000 == 0) = true by simpa using h6n)]
        by_cases h6m : m % 1000000 = 0
        · rw [if_pos (show (m % 1000000 == 0) = true by simpa using h6m)]
          simp only [List.cons_append]
          rw [ltb_cons]
          rw [ltb_pad_off 3 _ _ (by rw [pow10_3]; omega) (by rw [pow10_3]; omega)]
          exact decide_eq_decide.mpr (by omega)
        · rw [if_neg (show ¬((m % 1000000 == 0) = true) by simpa using h6m)]
          by_cases h3m : m % 1000 = 0
          · rw [if_pos (show (m % 1000 == 0) = true by simpa using h3m)]
            simp only [List.cons_append]
            rw [ltb_cons]
            have hsplit : padDigits 6 (m / 1000) =
                padDigits 3 (m / 1000 / 1000) ++ padDigits 3 (m / 1000 % 1000) :=
              padDigits_split 3 3 (m / 1000)
                (by rw [show ((10 : Nat) ^ (3 + 3)) = 1000000 from by norm_num]; omega)
            rw [hsplit, List.append_assoc]
            rw [ltb_append _ _ _ _ (by rw [padDigits_length, padDigits_length])]
            by_cases hpe : padDigits 3 (n / 1000000) = padDigits 3 (m / 1000 / 1000)
            · rw [if_pos hpe]
              have hev := padDigits_inj 3 _ _ (by rw [pow10_3]; omega)
                (by rw [pow10_3]; omega) hpe
              rw [ltb_off_pad 3 _ (by omega) (by rw [pow10_3]; omega)]
              exact (decide_eq_true (by omega)).symm
            · rw [if_neg hpe]
              rw [ltb_padDigits 3 _ _ (by rw [pow10_3]; omega) (by rw [pow10_3]; omega)]
              have hne : n / 1000000 ≠ m / 1000 / 1000 := fun he => hpe (by rw [he])
              exact decide_eq_decide.mpr (by omega)
          · rw [if_neg (show ¬((m % 1000 == 0) = true) by simpa using h3m)]
            simp only [List.cons_append]
            rw [ltb_cons]
            have hsplit : padDigits 9 m =
                padDigits 3 (m / 1000000) ++ padDigits 6 (m % 1000000) :=
              padDigits_split 3 6 m
                (by rw [show ((10 : Nat) ^ (3 + 6)) = 1000000000 from by norm_num]; omega)
            rw [hsplit, List.append_assoc]
            rw [ltb_append _ _ _ _ (by rw [padDigits_length, padDigits_length])]
            by_cases hpe : padDigits 3 (n / 1000000) = padDigits 3 (m / 1000000)
            · rw [if_pos hpe]
              have hev := padDigits_inj 3 _ _ (by rw [pow10_3]; omega)
                (by rw [pow10_3]; omega) hpe
              rw [ltb_off_pad 6 _ (by omega) (by rw [pow10_6]; omega)]
              exact (decide_eq_true (by omega)).symm
            · rw [if_neg hpe]
              rw [ltb_padDigits 3 _ _ (by rw [pow10_3]; omega) (by rw [pow10_3]; omega)]
              have hne : n / 1000000 ≠ m / 1000000 := fun he => hpe (by rw [he])
              exact decide_eq_decide.mpr (by omega)
      · rw [if_neg (show ¬((n % 1000000 == 0) = true) by simpa using h6n)]
        by_cases h3n : n % 1000 = 0
        · rw [if_pos (show (n % 1000 == 0) = true by simpa using h3n)]
          by_cases h6m : m % 1000000 = 0
          · rw [if_pos (show (m % 1000000 == 0) = true by simpa using h6m)]
            simp only [List.cons_append]
            rw [ltb_cons]
            have hsplit : padDigits 6 (n / 1000) =
                padDigits 3 (n / 1000 / 1000) ++ padDigits 3 (n / 1000 % 1000) :=
              padDigits_split 3 3 (n / 1000)
                (by rw [show ((10 : Nat) ^ (3 + 3)) = 1000000 from by norm_num]; omega)
            rw [hsplit, List.append_assoc]
            rw [ltb_append _ _ _ _ (by rw [padDigits_length, padDigits_length])]
            by_cases hpe : padDigits 3 (n / 1000 / 1000) = padDigits 3 (m / 1000000)
            · rw [if_pos hpe]
              have hev := padDigits_inj 3 _ _ (by rw [pow10_3]; omega)
                (by rw [pow10_3]; omega) hpe
              rw [ltb_pad_off_false 3 _ (by omega) (by rw [pow10_3]; omega)]
              exact (decide_eq_false (by omega)).symm
            · rw [if_neg hpe]
              rw [ltb_padDigits 3 _ _ (by rw [pow10_3]; omega) (by rw [pow10_3]; omega)]
              have hne : n / 1000 / 1000 ≠ m / 1000000 := fun he => hpe (by rw [he])
              exact decide_eq_decide.mpr (by omega)
          · rw [if_neg (show ¬((m % 1000000 == 0) = true) by simpa using h6m)]
            by_cases h3m : m % 1000 = 0
            · rw [if_pos (show (m % 1000 == 0) = true by simpa using h3m)]
              simp only [List.cons_append]
              rw [ltb_cons]
              rw [ltb_pad_off 6 _ _ (by rw [pow10_6]; omega) (by rw [pow10_6]; omega)]
              exact decide_eq_decide.mpr (by omega)
            · rw [if_neg (show ¬((m % 1000 == 0) = true) by simpa using h3m)]
              simp only [List.cons_append]
              rw [ltb_cons]
              have hsplit : padDigits 9 m =
                  padDigits 6 (m / 1000) ++ padDigits 3 (m % 1000) :=
                padDigits_split 6 3 m
                  (by rw [show ((10 : Nat) ^ (6 + 3)) = 1000000000 from by norm_num]; omega)
              rw [hsplit, List.append_assoc]
              rw [ltb_append _ _ _ _ (by rw [padDigits_length, padDigits_length])]
              by_cases hpe : padDigits 6 (n / 1000) = padDigits 6 (m / 1000)
              · rw [if_pos hpe]
                have hev := padDigits_inj 6 _ _ (by rw [pow10_6]; omega)
                  (by rw [pow10_6]; omega) hpe
                rw [ltb_off_pad 3 _ (by omega) (by rw [pow10_3]; omega)]
                exact (decide_eq_true (by omega)).symm
              · rw [if_neg hpe]
                rw [ltb_padDigits 6 _ _ (by rw [pow10_6]; omega) (by rw [pow10_6]; omega)]
                have hne : n / 1000 ≠ m / 1000 := fun he => hpe (by rw [he])
                exact decide_eq_decide.mpr (by omega)
        · rw [if_neg (show ¬((n % 1000 == 0) = true) by simpa using h3n)]
          by_cases h6m : m % 1000000 = 0
          · rw [if_pos (show (m % 1000000 == 0) = true by simpa using h6m)]
            simp only [List.cons_append]
            rw [ltb_cons]
            have hsplit : padDigits 9 n =
                padDigits 3 (n / 1000000) ++ padDigits 6 (n % 1000000) :=
              padDigits_split 3 6 n
                (by rw [show ((10 : Nat) ^ (3 + 6)) = 1000000000 from by norm_num]; omega)
            rw [hsplit, List.append_assoc]
            rw [ltb_append _ _ _ _ (by rw [padDigits_length, padDigits_length])]
            by_cases hpe : padDigits 3 (n / 1000000) = padDigits 3 (m / 1000000)
            · rw [if_pos hpe]
              have hev := padDigits_inj 3 _ _ (by rw [pow10_3]; omega)
                (by rw [pow10_3]; omega) hpe
              rw [ltb_pad_off_false 6 _ (by omega) (by rw [pow10_6]; omega)]
              exact (decide_eq_false (by omega)).symm
            · rw [if_neg hpe]
              rw [ltb_padDigits 3 _ _ (by rw [pow10_3]; omega) (by rw [pow10_3]; omega)]
              have hne : n / 1000000 ≠ m / 1000000 := fun he => hpe (by rw [he])
              exact decide_eq_decide.mpr (by omega)
          · rw [if_neg (show ¬((m % 1000000 == 0) = true) by simpa using h6m)]
            by_cases h3m : m % 1000 = 0
            · rw [if_pos (show (m % 1000 == 0) = true by simpa using h3m)]
              simp only [List.cons_append]
              rw [ltb_cons]
              have hsplit : padDigits 9 n =
                  padDigits 6 (n / 1000) ++ padDigits 3 (n % 1000) :=
                padDigits_split 6 3 n
                  (by rw [show ((10 : Nat) ^ (6 + 3)) = 1000000000 from by norm_num]; omega)
              rw [hsplit, List.append_assoc]
              rw [ltb_append _ _ _ _ (by rw [padDigits_length, padDigits_length])]
              by_cases hpe : padDigits 6 (n / 1000) = padDigits 6 (m / 1000)
              · rw [if_pos hpe]
                have hev := padDigits_inj 6 _ _ (by rw [pow10_6]; omega)
                  (by rw [pow10_6]; omega) hpe
                rw [ltb_pad_off_false 3 _ (by omega) (by rw [pow10_3]; omega)]
                exact (decide_eq_false (by omega)).symm
              · rw [if_neg hpe]
                rw [ltb_padDigits 6 _ _ (by rw [pow10_6]; omega) (by rw [pow10_6]; omega)]
                have hne : n / 1000 ≠ m / 1000 := fun he => hpe (by rw [he])
                exact decide_eq_decide.mpr (by omega)
            · rw [if_neg (show ¬((m % 1000 == 0) = true) by simpa using h3m)]
              simp only [List.cons_append]
              rw [ltb_cons]
              rw [ltb_pad_off 9 _ _ (by rw [pow10_9]; omega) (by rw [pow10_9]; omega)]

/-- The canonical renderings of valid instants compare textually exactly
as the instants compare chronologically. -/
theorem ltb_toRfc3339 (t1 t2 : DateTimeUtc) (hv1 : ValidDT t1)
    (hv2 : ValidDT t2) :
    ltb (toRfc3339Chars t1) (toRfc3339Chars t2) = dtLtb t1 t2 := by
  obtain ⟨y1, mo1, d1, h1, mi1, s1, n1⟩ := t1
  obtain ⟨y2, mo2, d2, h2, mi2, s2, n2⟩ := t2
  obtain ⟨hy1, hmo1a, hmo1b, hd1a, hd1b, hh1, hmi1, hs1, hn1⟩ := hv1
  obtain ⟨hy2, hmo2a, hmo2b, hd2a, hd2b, hh2, hmi2, hs2, hn2⟩ := hv2
  dsimp only at hy1 hmo1a hmo1b hd1a hd1b hh1 hmi1 hs1 hn1
  dsimp only at hy2 hmo2a hmo2b hd2a hd2b hh2 hmi2 hs2 hn2
  have h31a := daysInMonth_le y1 mo1
  have h31b := daysInMonth_le y2 mo2
  unfold toRfc3339Chars dtLtb
  dsimp only
  rw [ltb_append _ _ _ _ (by rw [padDigits_length, padDigits_length])]
  by_cases hy : y1 = y2
  · subst hy
    rw [if_pos rfl, if_neg (not_not_intro rfl), ltb_cons]
    rw [ltb_append _ _ _ _ (by rw [padDigits_length, padDigits_length])]
    by_cases hmo : mo1 = mo2
    · subst hmo
      rw [if_pos rfl, if_neg (not_not_intro rfl), ltb_cons]
      rw [ltb_append _ _ _ _ (by rw [padDigits_length, padDigits_length])]
      by_cases hd : d1 = d2
      · subst hd
        rw [if_pos rfl, if_neg (not_not_intro rfl), ltb_cons]
        rw [ltb_append _ _ _ _ (by rw [padDigits_length, padDigits_length])]
        by_cases hh : h1 = h2
        · subst hh
          rw [if_pos rfl, if_neg (not_not_intro rfl), ltb_cons]
          rw [ltb_append _ _ _ _ (by rw [padDigits_length, padDigits_length])]
          by_cases hmi : mi1 = mi2
          · subst hmi
            rw [if_pos rfl, if_neg (not_not_intro rfl), ltb_cons]
            rw [ltb_append _ _ _ _ (by rw [padDigits_length, padDigits_length])]
            by_cases hs : s1 = s2
            · subst hs
              rw [if_pos rfl, if_neg (not_not_intro rfl)]
              exact ltb_frac n1 n2 hn1 hn2
            · rw [if_neg (show ¬(padDigits 2 s1 = padDigits 2 s2) from
                  fun he => hs (padDigits_inj 2 _ _ (by rw [pow10_2]; omega)
                    (by rw [pow10_2]; omega) he)), if_pos hs]
              exact ltb_padDigits 2 _ _ (by rw [pow10_2]; omega)
                (by rw [pow10_2]; omega)
          · rw [if_neg (show ¬(padDigits 2 mi1 = padDigits 2 mi2) from
                fun he => hmi (padDigits_inj 2 _ _ (by rw [pow10_2]; omega)
                  (by rw [pow10_2]; omega) he)), if_pos hmi]
            exact ltb_padDigits 2 _ _ (by rw [pow10_2]; omega)
              (by rw [pow10_2]; omega)
        · rw [if_neg (show ¬(padDigits 2 h1 = padDigits 2 h2) from
              fun he => hh (padDigits_inj 2 _ _ (by rw [pow10_2]; omega)
                (by rw [pow10_2]; omega) he)), if_pos hh]
          exact ltb_padDigits 2 _ _ (by rw [pow10_2]; omega)
            (by rw [pow10_2]; omega)
      · rw [if_neg (show ¬(padDigits 2 d1 = padDigits 2 d2) from
            fun he => hd (padDigits_inj 2 _ _ (by rw [pow10_2]; omega)
              (by rw [pow10_2]; omega) he)), if_pos hd]
        exact ltb_padDigits 2 _ _ (by rw [pow10_2]; omega)
          (by rw [pow10_2]; omega)
    · rw [if_neg (show ¬(padDigits 2 mo1 = padDigits 2 mo2) from
          fun he => hmo (padDigits_inj 2 _ _ (by rw [pow10_2]; omega)
            (by rw [pow10_2]; omega) he)), if_pos hmo]
      exact ltb_padDigits 2 _ _ (by rw [pow10_2]; omega)
        (by rw [pow10_2]; omega)
  · rw [if_neg (show ¬(padDigits 4 y1 = padDigits 4 y2) from
        fun he => hy (padDigits_inj 4 _ _ (by rw [pow10_4]; omega)
          (by rw [pow10_4]; omega) he)), if_pos hy]
    exact ltb_padDigits 4 _ _ (by rw [pow10_4]; omega) (by rw [pow10_4]; omega)

/-- Instants that compare false both ways are equal. -/
theorem dtLtb_antisymm (t1 t2 : DateTimeUtc) (h12 : dtLtb t1 t2 = false)
    (h21 : dtLtb t2 t1 = false) : t1 = t2 := by
  obtain ⟨y1, mo1, d1, h1, mi1, s1, n1⟩ := t1
  obtain ⟨y2, mo2, d2, h2, mi2, s2, n2⟩ := t2
  unfold dtLtb at h12 h21
  dsimp only at h12 h21
  by_cases hy : y1 = y2
  · subst hy
    rw [if_neg (not_not_intro rfl)] at h12 h21
    by_cases hmo : mo1 = mo2
    · subst hmo
      rw [if_neg (not_not_intro rfl)] at h12 h21
      by_cases hd : d1 = d2
      · subst hd
        rw [if_neg (not_not_intro rfl)] at h12 h21
        by_cases hh : h1 = h2
        · subst hh
          rw [if_neg (not_not_intro rfl)] at h12 h21
          by_cases hmi : mi1 = mi2
          · subst hmi
            rw [if_neg (not_not_intro rfl)] at h12 h21
            by_cases hs : s1 = s2
            · subst hs
              rw [if_neg (not_not_intro rfl)] at h12 h21
              have a1 := of_decide_eq_false h12
              have a2 := of_decide_eq_false h21
              have : n1 = n2 := by omega
              rw [this]
            · rw [if_pos hs] at h12
              rw [if_pos (Ne.symm hs)] at h21
              have a1 := of_decide_eq_false h12
              have a2 := of_decide_eq_false h21
              omega
          · rw [if_pos hmi] at h12
            rw [if_pos (Ne.symm hmi)] at h21
            have a1 := of_decide_eq_false h12
            have a2 := of_decide_eq_false h21
            omega
        · rw [if_pos hh] at h12
          rw [if_pos (Ne.symm hh)] at h21
          have a1 := of_decide_eq_false h12
          have a2 := of_decide_eq_false h21
          omega
      · rw [if_pos hd] at h12
        rw [if_pos (Ne.symm hd)] at h21
        have a1 := of_decide_eq_false h12
        have a2 := of_decide_eq_false h21
        omega
    · rw [if_pos hmo] at h12
      rw [if_pos (Ne.symm hmo)] at h21
      have a1 := of_decide_eq_false h12
      have a2 := of_decide_eq_false h21
      omega
  · rw [if_pos hy] at h12
    rw [if_pos (Ne.symm hy)] at h21
    have a1 := of_decide_eq_false h12
    have a2 := of_decide_eq_false h21
    omega

/-- The canonical rendering is injective on valid instants. -/
theorem toRfc3339_inj (t1 t2 : DateTimeUtc) (hv1 : ValidDT t1)
    (hv2 : ValidDT t2) (he : toRfc3339 t1 = toRfc3339 t2) : t1 = t2 := by
  have hchars : toRfc3339Chars t1 = toRfc3339Chars t2 :=
    congrArg String.data he
  apply dtLtb_antisymm
  · have h := ltb_toRfc3339 t1 t2 hv1 hv2
    rw [hchars, ltb_irrefl] at h
    exact h.symm
  · have h := ltb_toRfc3339 t2 t1 hv2 hv1
    rw [hchars, ltb_irrefl] at h
    exact h.symm

/-- C9: Canonical stored-timestamp invariant. The row written by
`insert_message` persists the timestamp as the canonical rendering of
its UTC instant, that rendering carries the `+00:00` offset suffix, and
on such renderings the textual comparison the query uses agrees exactly
with chronological comparison: the textual less-than of two valid
instants' renderings equals their chronological less-than, and two
renderings are equal exactly when the instants are. -/
theorem stored_timestamps_textual_order (msg : SmsMessage) (db : List Row)
    (t1 t2 : DateTimeUtc) (hv1 : ValidDT t1) (hv2 : ValidDT t2) :
    insert_message msg db = db ++ [⟨db.length + 1, msg.imei, msg.imsi,
      msg.sender, msg.text, toRfc3339 msg.timestamp⟩] ∧
    List.IsSuffix offsetUtcChars (toRfc3339 msg.timestamp).data ∧
    strLtb (toRfc3339 t1) (toRfc3339 t2) = dtLtb t1 t2 ∧
    (toRfc3339 t1 = toRfc3339 t2 ↔ t1 = t2) := by
  refine ⟨rfl, ?_, ?_, ?_⟩
  · show List.IsSuffix offsetUtcChars (toRfc3339Chars msg.timestamp)
    exact ⟨padDigits 4 msg.timestamp.year ++ '-' ::
      (padDigits 2 msg.timestamp.month ++ '-' ::
      (padDigits 2 msg.timestamp.day ++ 'T' ::
      (padDigits 2 msg.timestamp.hour ++ ':' ::
      (padDigits 2 msg.timestamp.minute ++ ':' ::
      (padDigits 2 msg.timestamp.second ++ fracChars msg.timestamp.nanos))))),
      by simp [toRfc3339Chars]⟩
  · exact ltb_toRfc3339 t1 t2 hv1 hv2
  · exact ⟨toRfc3339_inj t1 t2 hv1 hv2, fun he => by rw [he]⟩

/-- C9 witness: concrete valid instants, textual comparison and equality
agreeing with the chronological ones. -/
theorem stored_timestamps_textual_order_witness :
    strLtb (toRfc3339 dt2024) (toRfc3339 dt2030) = dtLtb dt2024 dt2030 ∧
    (toRfc3339 dt2024 = toRfc3339 dt2030 ↔ dt2024 = dt2030) :=
  ⟨(stored_timestamps_textual_order ⟨none, "I", "S", "a", "b", dt2024⟩ []
      dt2024 dt2030 (by decide) (by decide)).2.2.1,
   (stored_timestamps_textual_order ⟨none, "I", "S", "a", "b", dt2024⟩ []
      dt2024 dt2030 (by decide) (by decide)).2.2.2⟩

end Samson
